import Mathlib

/-!
Verification of the structural parser of the OSCAL-Common-CP converter
(`oscal_common_cp/__main__.py`).  The Python source is shallowly embedded:
pure functions become Lean functions on `String` / `List String`; the
mutable group graph of the tree builder is embedded as an arena of nodes
addressed by index; fallible code returns `Except ParseErr`.  Python string
idioms (`in`, `str.strip`, `str.replace`, slice/negative indexing,
`re.sub` with the concrete patterns the program uses) are embedded by
faithful executable models defined below.
-/

/-- Errors a parse can abort with (Python exceptions). -/
inductive ParseErr where
  | indexError
  | incompleteMetadata
  | noSectionTitle
  deriving DecidableEq, Repr

deriving instance DecidableEq for Except

/-! ### Python string primitives -/

/-- Python whitespace for `str.strip` (ASCII subset; the inputs are ASCII). -/
def isPyWs (c : Char) : Bool :=
  c = ' ' || c = '\t' || c = '\n' || c = '\r' || c = '\x0b' || c = '\x0c'

/-- Python `str.strip()`. -/
def pyStrip (s : String) : String :=
  ⟨(s.data.dropWhile isPyWs).reverse.dropWhile isPyWs |>.reverse⟩

/-- Does `pat` occur as a contiguous substring of `s`?  (Python `pat in s`.) -/
def hasSubstr (pat s : List Char) : Bool :=
  match s with
  | [] => pat = []
  | _ :: rest => s.take pat.length = pat || hasSubstr pat rest

/-- Python `pat in s` on strings. -/
def pyIn (pat s : String) : Bool := hasSubstr pat.data s.data

/-- Worker for `pyReplace`: scans left to right; a positive `skip` records
characters of a just-replaced occurrence still to be consumed. -/
def replGo (pat rep : List Char) : ℕ → List Char → List Char
  | _ + 1, [] => []
  | skip + 1, _ :: cs => replGo pat rep skip cs
  | 0, [] => []
  | 0, c :: cs =>
    if 0 < pat.length ∧ (c :: cs).take pat.length = pat then
      rep ++ replGo pat rep (pat.length - 1) cs
    else
      c :: replGo pat rep 0 cs

/-- Python `s.replace(pat, rep)` (also `re.sub` with a literal pattern):
left-to-right, non-overlapping replacement of every occurrence. -/
def pyReplace (s pat rep : String) : String := ⟨replGo pat.data rep.data 0 s.data⟩

/-! ### Line Segmenter (`common_policy_to_catalog`, lines 38-54)

The Python loop skips blank lines, flushes the accumulated block whenever a
line starts with `#` (`line[0] == "#"`), and appends other lines to the
open block.  The block still being accumulated when the input ends is never
flushed. -/

def splitSectionsGo (sec : List String) : List String → List (List String)
  | [] => []
  | l :: ls =>
    if l = "" then splitSectionsGo sec ls
    else if l.data.headD ' ' = '#' then sec :: splitSectionsGo [l] ls
    else splitSectionsGo (sec ++ [l]) ls

/-- The section segmentation performed at the top of `common_policy_to_catalog`. -/
def splitSections (lines : List String) : List (List String) :=
  splitSectionsGo [] lines

/-! ### Text normalizer (`strip_html_from_text`, lines 31-32)

`re.sub("<.*>", "", input)`: `.*` is greedy and does not cross a newline,
so at the first `<` that is followed by some later `>` on the same line the
regex consumes through the *last* such `>`; the scan then resumes after
that point.  `angleGo` is the operational model of this scan. -/

/-- Index into the tail `cs` of the last `>` reachable by `.*` from the
character after a `<`, i.e. the last `>` before the first newline of `cs`.
`none` when there is no such `>`. -/
def lastGtIdx (cs : List Char) : Option ℕ :=
  let region := cs.takeWhile (· ≠ '\n')
  ((List.range region.length).filter (fun i => region.getD i ' ' = '>')).getLast?

def angleGo : ℕ → List Char → List Char
  | _ + 1, [] => []
  | skip + 1, _ :: cs => angleGo skip cs
  | 0, [] => []
  | 0, c :: cs =>
    if c = '<' then
      match lastGtIdx cs with
      | some j => angleGo (j + 1) cs
      | none => c :: angleGo 0 cs
    else
      c :: angleGo 0 cs

/-- `strip_html_from_text` (lines 31-32 of the source). -/
def stripHtmlFromText (input : String) : String := ⟨angleGo 0 input.data⟩

/-! ### Slugifier (`title_to_id`, lines 165-170) -/

/-- Characters removed by `title_to_id` (the string `"(),/’:"`, where the
quote is U+2019). -/
def idDenyChars : List Char := ['(', ')', ',', '/', Char.ofNat 8217, ':']

/-- `title_to_id`: lower-case, strip, spaces to hyphens, drop the denylist. -/
def titleToId (title : String) : String :=
  let id := pyReplace (pyStrip ⟨title.data.map Char.toLower⟩) " " "-"
  ⟨id.data.filter (fun c => ¬ c ∈ idDenyChars)⟩

-- Sanity checks on the embeddings (concrete behaviours of the Python source).
example : splitSections ["# A", "x"] = [[]] := by decide
example : splitSections ["intro", "# A", "x", "# B"] =
    [["intro"], ["# A", "x"]] := by decide
example : stripHtmlFromText "a<x>b<y>c" = "ac" := by decide
example : titleToId "  Key (Pair) Generation  " = "key-pair-generation" := by decide
example : pyReplace "group-1-group" "group" "control" = "control-1-control" := by decide
example : pyIn "</table" "x </table>" = true := by decide

/-! ### Outline Position Tracker (`toc_pos`: lines 26-27, 100-104, 177) -/

/-- Python `sep.join(parts)`. -/
def sepJoin (sep : String) : List String → String
  | [] => ""
  | [s] => s
  | s :: rest => s ++ sep ++ sepJoin sep rest

/-- Python `".".join(parts)`. -/
def dotJoin (parts : List String) : String := sepJoin "." parts

/-- Initial `toc_pos` (lines 26-27): nine counters, the first pre-seeded to 1. -/
def initTocPos : List ℕ := [1, 0, 0, 0, 0, 0, 0, 0, 0]

/-- `".".join([str(x) for x in toc_pos][:section_depth])` (line 177). -/
def secNum (pos : List ℕ) (depth : ℕ) : String :=
  dotJoin ((pos.map Nat.repr).take depth)

/-- Lines 102-104: `toc_pos[section_depth-1] += 1` followed by
`toc_pos[section_depth:] = [0]*(9-section_depth)`, for the length-9
`toc_pos` and `1 ≤ depth ≤ 9` (a larger depth raises IndexError, handled
at the call site). -/
def tocUpdate (pos : List ℕ) (depth : ℕ) : List ℕ :=
  pos.take (depth - 1) ++ [pos.getD (depth - 1) 0 + 1] ++ List.replicate (9 - depth) 0

/-! ### Table Extractor: the `TableParser` state machine (lines 404-444)

`html.parser.HTMLParser` turns raw markup into a stream of start-tag,
end-tag and character-data events; `TableParser` folds over that stream.
The event stream is embedded explicitly, and the stdlib tokenizer is
modelled for the attribute-free markup subset these documents contain. -/

inductive HtmlEvent where
  | startTag (tag : String)
  | endTag (tag : String)
  | chars (s : String)
  deriving DecidableEq, Repr

structure TPState where
  parsedTable : List (List String)
  currentRow : List String
  currentCell : String
  inRow : Bool
  inCell : Bool
  deriving DecidableEq, Repr

def tpInit : TPState := ⟨[], [], "", false, false⟩

/-- `handle_starttag` (lines 411-420): two independent `if`s. -/
def tpStartTag (st : TPState) (tag : String) : TPState :=
  let st1 := if tag = "tr" then { st with currentRow := [], inRow := true } else st
  if tag = "td" then { st1 with currentCell := "", inCell := true } else st1

/-- `handle_endtag` (lines 422-433): an `if` for `tr`, then an
`if`/`else` pair for `td` — on any non-`td` end tag seen inside an open
cell a space is appended to the cell. -/
def tpEndTag (st : TPState) (tag : String) : TPState :=
  let st1 :=
    if tag = "tr" then
      { st with parsedTable := st.parsedTable ++ [st.currentRow], inRow := false }
    else st
  if tag = "td" then
    { st1 with currentRow := st1.currentRow ++ [st1.currentCell], inCell := false }
  else if st1.inRow && st1.inCell then
    { st1 with currentCell := st1.currentCell ++ " " }
  else st1

/-- `handle_data` (lines 435-437). -/
def tpChars (st : TPState) (s : String) : TPState :=
  if st.inRow && st.inCell then { st with currentCell := st.currentCell ++ s } else st

def tpStep (st : TPState) : HtmlEvent → TPState
  | .startTag tag => tpStartTag st tag
  | .endTag tag => tpEndTag st tag
  | .chars s => tpChars st s

def tpRun (events : List HtmlEvent) : TPState :=
  events.foldl tpStep tpInit

/-- Tag name: letters up to a space, `/` or `>`, lowercased (HTMLParser
lowercases tag names). -/
def tagNameOf (cs : List Char) : String :=
  ⟨(cs.takeWhile (fun c => c ≠ ' ' ∧ c ≠ '>' ∧ c ≠ '/')).map Char.toLower⟩

/-- Model of the `HTMLParser` tokenizer for the attribute-free markup these
documents contain: `<x ...>` and `</x ...>` become tag events, maximal
tag-free runs become character data.  A positive `skip` records characters
of an already-emitted token still to be consumed. -/
def tokenizeGo : ℕ → List Char → List HtmlEvent
  | _ + 1, [] => []
  | skip + 1, _ :: cs => tokenizeGo skip cs
  | 0, [] => []
  | 0, c :: cs =>
    if c = '<' then
      let inner := cs.takeWhile (· ≠ '>')
      let ev :=
        if inner.headD ' ' = '/' then HtmlEvent.endTag (tagNameOf (inner.drop 1))
        else HtmlEvent.startTag (tagNameOf inner)
      ev :: tokenizeGo (inner.length + 1) cs
    else
      let chunk := (c :: cs).takeWhile (· ≠ '<')
      HtmlEvent.chars ⟨chunk⟩ :: tokenizeGo (chunk.length - 1) cs

def tokenizeHtml (cs : List Char) : List HtmlEvent := tokenizeGo 0 cs

/-! ### Python indexing and slicing on line lists -/

/-- Python `l[i]` with negative-index wraparound; `none` is IndexError. -/
def pyGet (l : List String) (i : ℤ) : Option String :=
  if 0 ≤ i ∧ i < l.length then some (l.getD i.toNat "")
  else if -l.length ≤ i ∧ i < 0 then some (l.getD (l.length + i).toNat "")
  else none

/-- Python `l[a:b]`. -/
def pySlice (l : List String) (a b : ℤ) : List String :=
  let clamp : ℤ → ℕ := fun i => if i < 0 then (l.length + i).toNat else min i.toNat l.length
  (l.drop (clamp a)).take (clamp b - clamp a)

/-! ### `parse_html_table` (lines 393-401): the backward walk for the
opening tag, then the bounded slice fed to `TableParser`. -/

/-- The `while "<table" not in contents[current_line]: current_line -= 1`
walk.  `none` from `pyGet` is Python's IndexError.  The fuel is chosen by
the wrapper so that it never runs out before the walk ends on its own. -/
def tableOpenGo (contents : List String) : ℕ → ℤ → Except ParseErr ℤ
  | 0, _ => .error .indexError
  | fuel + 1, cur =>
    match pyGet contents cur with
    | none => .error .indexError
    | some line => if pyIn "<table" line then .ok cur else tableOpenGo contents fuel (cur - 1)

def findTableOpen (contents : List String) (start : ℤ) : Except ParseErr ℤ :=
  tableOpenGo contents ((start + 1).toNat + contents.length + 2) start

def parseHtmlTable (contents : List String) (tableEndLine : ℤ) :
    Except ParseErr (List (List String)) :=
  match findTableOpen contents (tableEndLine + 1) with
  | .error e => .error e
  | .ok cur =>
    let tableList := pySlice contents cur (tableEndLine + 2)
    .ok (tpRun (tokenizeHtml (String.join tableList).data)).parsedTable

-- Sanity checks.
example : pyGet ["a", "b"] (-1) = some "b" := by decide
example : pyGet ["a", "b"] 2 = none := by decide
example : parseHtmlTable ["x", "y", "<table>"] 0 = .ok [] := by decide
example :
    (tpRun [.startTag "table", .startTag "tr", .startTag "td", .chars "a",
      .endTag "td", .endTag "tr", .endTag "table"]).parsedTable = [["a"]] := by decide
example :
    parseHtmlTable ["<table>", "<tr><td>a</td><td>b</td></tr>", "</table>"] 1 =
      .ok [["a", "b"]] := by decide

/-! ### Date parsing: `datetime.strptime(line, "%B %d, %Y")` (line 311)

CPython compiles the format to a regex: the full month name
(case-insensitively), whitespace (`\s+`), a day matched by the ordered
alternation `(3[01]|[12]\d|0[1-9]|[1-9])` (with backtracking into the
following literal `,`), `\s+`, exactly four digits for `%Y`, end of
string; the resulting triple is then validated by the `datetime`
constructor (day within the month, year at least 1). -/

structure Date where
  year : ℕ
  month : ℕ
  day : ℕ
  deriving DecidableEq, Repr

/-- Value of a list of decimal digit characters. -/
def decVal (cs : List Char) : ℕ :=
  cs.foldl (fun a c => a * 10 + (c.toNat - 48)) 0

def monthNamesUS : List String :=
  ["January", "February", "March", "April", "May", "June", "July",
   "August", "September", "October", "November", "December"]

/-- First month name that is a case-insensitive prefix of `cs`;
returns the 1-based month and the number of characters consumed. -/
def matchMonthGo : List String → ℕ → List Char → Option (ℕ × ℕ)
  | [], _, _ => none
  | name :: rest, idx, cs =>
    if (cs.take name.data.length).map Char.toLower = name.data.map Char.toLower then
      some (idx + 1, name.data.length)
    else matchMonthGo rest (idx + 1) cs

/-- Parse the `", \s+ YYYY $"` tail after the day; returns the year. -/
def parseDateTail (cs : List Char) : Option ℕ :=
  match cs with
  | ',' :: cs1 =>
    let ws := cs1.takeWhile isPyWs
    if ws.length = 0 then none
    else
      let cs2 := cs1.drop ws.length
      if cs2.length = 4 ∧ cs2.all Char.isDigit then some (decVal cs2) else none
  | _ => none

/-- Day candidates in the order the regex alternation tries them:
the two-digit forms `3[01] | [12]\d | 0[1-9]`, then a single `[1-9]`. -/
def dayCandidates (cs : List Char) : List (ℕ × ℕ) :=
  let c1 := cs.getD 0 ' '
  let c2 := cs.getD 1 ' '
  let two :=
    if 2 ≤ cs.length ∧
        ((c1 = '3' ∧ (c2 = '0' ∨ c2 = '1')) ∨
         ((c1 = '1' ∨ c1 = '2') ∧ c2.isDigit) ∨
         (c1 = '0' ∧ c2.isDigit ∧ c2 ≠ '0')) then
      [(decVal [c1, c2], 2)]
    else []
  let one := if 1 ≤ cs.length ∧ c1.isDigit ∧ c1 ≠ '0' then [(decVal [c1], 1)] else []
  two ++ one

/-- Backtracking over the day candidates: take the first one after which
the rest of the string parses. -/
def tryDays : List (ℕ × ℕ) → List Char → Option (ℕ × ℕ)
  | [], _ => none
  | (d, k) :: rest, cs =>
    match parseDateTail (cs.drop k) with
    | some y => some (d, y)
    | none => tryDays rest cs

def isLeapYear (y : ℕ) : Bool := y % 4 = 0 ∧ (y % 100 ≠ 0 ∨ y % 400 = 0)

def daysInMonth (y m : ℕ) : ℕ :=
  if m = 2 then (if isLeapYear y then 29 else 28)
  else if m = 4 ∨ m = 6 ∨ m = 9 ∨ m = 11 then 30
  else 31

/-- `datetime.strptime(line, "%B %d, %Y")`, `none` for `ValueError`. -/
def parseUSDate (s : String) : Option Date :=
  match matchMonthGo monthNamesUS 0 s.data with
  | none => none
  | some (m, k) =>
    let cs := s.data.drop k
    let ws := cs.takeWhile isPyWs
    if ws.length = 0 then none
    else
      let cs1 := cs.drop ws.length
      match tryDays (dayCandidates cs1) cs1 with
      | none => none
      | some (d, y) =>
        if 1 ≤ y ∧ 1 ≤ d ∧ d ≤ daysInMonth y m then some ⟨y, m, d⟩ else none

-- Sanity checks against CPython's behaviour.
example : parseUSDate "January 1, 2020" = some ⟨2020, 1, 1⟩ := by decide
example : parseUSDate "september  30, 1999" = some ⟨1999, 9, 30⟩ := by decide
example : parseUSDate "February 30, 2020" = none := by decide
example : parseUSDate "February 29, 2020" = some ⟨2020, 2, 29⟩ := by decide
example : parseUSDate "February 29, 2021" = none := by decide
example : parseUSDate "January 1, 2020 " = none := by decide
example : parseUSDate "Version 1.0" = none := by decide

/-! ### `revision_history_to_revisions` (lines 369-390) -/

structure Revision where
  version : String
  published : Date
  remarks : String
  deriving DecidableEq, Repr

/-- Body of the `for row in revisions[1:]` loop: `row[0]`/`row[1]`/`row[2]`
raise IndexError on short rows; a row whose second cell is not a date is
skipped. -/
def revRowsGo : List (List String) → Except ParseErr (List Revision)
  | [] => .ok []
  | row :: rest =>
    if row.length < 2 then .error .indexError
    else
      match parseUSDate (row.getD 1 "") with
      | none => revRowsGo rest
      | some d =>
        if row.length < 3 then .error .indexError
        else
          match revRowsGo rest with
          | .error e => .error e
          | .ok l => .ok (⟨row.getD 0 "", d, row.getD 2 ""⟩ :: l)

def revisionHistoryToRevisions (revisions : List (List String)) :
    Except ParseErr (List Revision) :=
  revRowsGo (revisions.drop 1)

/-! ### `parse_metadata` (lines 272-328) -/

structure Metadata where
  title : String
  published : Date
  version : String
  oscalVersion : String
  revisions : Option (List Revision)
  deriving DecidableEq, Repr

structure MScan where
  version : String
  published : Option Date
  revisions : Option (List Revision)
  inTable : Bool
  inToc : Bool
  tocLines : List String
  deriving DecidableEq, Repr

def mScanInit : MScan := ⟨"", none, none, false, false, []⟩

/-- The revision-table extraction of the `</table` branch (lines 287-292):
`parse_html_table` on the whole introduction at the current line number,
then `revision_history_to_revisions`. -/
def metaTableStep (introduction : List String) (i : ℕ) :
    Except ParseErr (List Revision) :=
  match parseHtmlTable introduction i with
  | .error e => .error e
  | .ok tbl => revisionHistoryToRevisions tbl

/-- One iteration of the `parse_metadata` line loop (the `elif` chain). -/
def mStep (introduction : List String) (i : ℕ) (line : String) (st : MScan) :
    Except ParseErr MScan :=
  if line = "" then .ok st
  else if pyIn "<table" line then .ok { st with inTable := true }
  else if pyIn "</table" line then
    match metaTableStep introduction i with
    | .error e => .error e
    | .ok revs => .ok { st with inTable := false, revisions := some revs }
  else if st.inTable then .ok st
  else if pyIn "Table of Contents" line then .ok { st with inToc := true }
  else if line.data.headD ' ' = '[' ∧ st.inToc then
    .ok { st with tocLines := st.tocLines ++ [line] }
  else if pyIn "Version " line then
    .ok { st with version := pyReplace line "Version " "" }
  else if (line.data.headD ' ' ∈ ['*', '<', '[', '(']) ∧ ¬ st.inToc then .ok st
  else
    match parseUSDate line with
    | some d => .ok { st with published := some d }
    | none => .ok st

def mScanGo (introduction : List String) : ℕ → List String → MScan →
    Except ParseErr MScan
  | _, [], st => .ok st
  | i, line :: rest, st =>
    match mStep introduction i line st with
    | .error e => .error e
    | .ok st' => mScanGo introduction (i + 1) rest st'

def cpTitle : String :=
  "X.509 Certificate Policy for the U.S. Federal PKI Common Policy Framework"

/-- `parse_metadata`: the line scan, then the mandatory version/date check.
(`parse_table_of_contents` only fills the abandoned global `toc_dict`,
which nothing reads; it has no effect on the result.) -/
def parseMetadata (introduction : List String) : Except ParseErr Metadata :=
  match mScanGo introduction 0 introduction mScanInit with
  | .error e => .error e
  | .ok st =>
    if st.version = "" ∨ st.published = none then .error .incompleteMetadata
    else .ok ⟨cpTitle, st.published.getD ⟨0, 0, 0⟩, st.version, "1.1.2", st.revisions⟩

-- Sanity checks.
example : parseMetadata ["Version 1.0", "January 1, 2020"] =
    .ok ⟨cpTitle, ⟨2020, 1, 1⟩, "1.0", "1.1.2", none⟩ := by decide
example : parseMetadata ["Version 1.0"] = .error .incompleteMetadata := by decide
example : parseMetadata [] = .error .incompleteMetadata := by decide

/-! ### `parse_backmatter` (lines 331-366) -/

/-- A bibliographic resource.  (The Python object also carries a freshly
random UUID, which encodes no information and is omitted.) -/
structure Resource where
  title : String
  description : String
  url : String
  deriving DecidableEq, Repr

/-- Positions of `s` at which the literal `http` starts; the regex model
below needs the last one. -/
def httpSplitIdx (cs : List Char) : Option ℕ :=
  ((List.range (cs.length + 1)).filter
    (fun i => (cs.drop i).take 4 = "http".data)).getLast?

/-- Model of `re.match(r"^(?P<name>.*)\s*(?P<url>http.*)\s*$", s)` for a
newline-free `s`: all quantifiers are greedy, so when `http` occurs at all
the match splits at the *last* occurrence — `name` is everything before
it (trailing spaces included), `url` the rest. -/
def resourceReMatch (s : String) : Option (String × String) :=
  match httpSplitIdx s.data with
  | none => none
  | some i => some (⟨s.data.take i⟩, ⟨s.data.drop i⟩)

/-- The `for resource in resource_table` loop (lines 343-364): `row[0]` /
`row[1]` raise IndexError on short rows; rows whose second cell has no
`http` occurrence are skipped. -/
def backmatterRowsGo : List (List String) → Except ParseErr (List Resource)
  | [] => .ok []
  | row :: rest =>
    if row.length < 2 then .error .indexError
    else
      match resourceReMatch (row.getD 1 "") with
      | none => backmatterRowsGo rest
      | some (n, u) =>
        match backmatterRowsGo rest with
        | .error e => .error e
        | .ok l => .ok (⟨row.getD 0 "", n, u⟩ :: l)

def parseBackmatterRows (rows : List (List String)) : Except ParseErr (List Resource) :=
  backmatterRowsGo rows

/-- The table-locating loop of `parse_backmatter` (lines 337-339): every
`</table` line re-assigns `resource_table` via `parse_html_table` with
`table_end_line = index - 1`. -/
def backTableGo (contents : List String) :
    ℕ → List String → List (List String) → Except ParseErr (List (List String))
  | _, [], acc => .ok acc
  | i, line :: rest, acc =>
    if pyIn "</table" line then
      match parseHtmlTable contents ((i : ℤ) - 1) with
      | .error e => .error e
      | .ok tbl => backTableGo contents (i + 1) rest tbl
    else backTableGo contents (i + 1) rest acc

def parseBackmatter (contents : List String) : Except ParseErr (List Resource) :=
  match backTableGo contents 0 contents [] with
  | .error e => .error e
  | .ok tbl => parseBackmatterRows tbl

-- Sanity checks.
example : parseBackmatter [] = .ok [] := by decide
example : parseBackmatterRows [["T", "Desc http://x"]] =
    .ok [⟨"T", "Desc ", "http://x"⟩] := by decide
example : parseBackmatterRows [["NoLink", "no url here"]] = .ok [] := by decide

/-! ### `section_to_control` (lines 217-269) -/

structure StatementPart where
  id : String
  name : String
  prose : String
  deriving DecidableEq, Repr

structure Control where
  id : String
  title : String
  parts : List StatementPart
  deriving DecidableEq, Repr

/-- `re.sub("#+", "", s)`: removing every maximal run of `#` deletes
exactly the `#` characters. -/
def hashSub (s : String) : String := ⟨s.data.filter (· ≠ '#')⟩

/-- Parts generated for the rows of an embedded table (lines 242-250). -/
def rowsToParts (stmtBase : String) : ℕ → List (List String) → List StatementPart
  | _, [] => []
  | n, row :: rest =>
    ⟨stmtBase ++ "-" ++ Nat.repr n, "statement", "|" ++ sepJoin "|" row ++ "|"⟩ ::
      rowsToParts stmtBase (n + 1) rest

/-- The `for section_line_number, section_line_text in
enumerate(section_contents[1:])` loop (lines 232-265). -/
def ctrlPartsGo (sectionContents : List String) (stmtBase : String) :
    List String → ℕ → Bool → ℕ → Except ParseErr (List StatementPart)
  | [], _, _, _ => .ok []
  | line :: rest, i, inTable, partNum =>
    if pyIn "<table" line then
      ctrlPartsGo sectionContents stmtBase rest (i + 1) true partNum
    else if pyIn "</table" line then
      match parseHtmlTable sectionContents (i : ℤ) with
      | .error e => .error e
      | .ok tbl =>
        match ctrlPartsGo sectionContents stmtBase rest (i + 1) false (partNum + tbl.length) with
        | .error e => .error e
        | .ok ps => .ok (rowsToParts stmtBase partNum tbl ++ ps)
    else if inTable then ctrlPartsGo sectionContents stmtBase rest (i + 1) inTable partNum
    else if line.data.headD ' ' = '<' then
      ctrlPartsGo sectionContents stmtBase rest (i + 1) inTable partNum
    else
      match ctrlPartsGo sectionContents stmtBase rest (i + 1) inTable (partNum + 1) with
      | .error e => .error e
      | .ok ps =>
        .ok (⟨stmtBase ++ "-" ++ Nat.repr partNum, "statement", stripHtmlFromText line⟩ :: ps)

def sectionToControl (sectionNumber : String) (sectionContents : List String) :
    Except ParseErr Control :=
  let controlTitle := stripHtmlFromText (pyStrip (hashSub (sectionContents.headD "")))
  let controlId := "ctrl-" ++ sectionNumber ++ "-" ++ titleToId controlTitle
  let stmtBase := pyReplace controlId "ctrl" "stmt"
  match ctrlPartsGo sectionContents stmtBase (sectionContents.drop 1) 0 false 1 with
  | .error e => .error e
  | .ok parts => .ok ⟨controlId, controlTitle, parts⟩

/-! ### `section_to_group` (lines 173-214) and the tree builder
(lines 87-137)

Python groups are mutable objects linked by reference; the group graph is
embedded as an arena of nodes addressed by index, with child lists holding
indices. -/

structure GNode where
  id : String
  title : String
  groups : Option (List ℕ)
  controls : Option (List Control)
  deriving DecidableEq, Repr, Inhabited

/-- What `section_to_group` computes before any tree placement: the group
id/title, and for a section with body lines the synthetic controls group
and its control. -/
structure SectionData where
  groupId : String
  groupTitle : String
  inner : Option (String × String × Control)
  deriving DecidableEq, Repr

def sectionToGroupData (pos : List ℕ) (sectionContents : List String)
    (sectionDepth : ℕ) : Except ParseErr (Option SectionData) :=
  let s := secNum pos sectionDepth
  let groupTitle := stripHtmlFromText (pyStrip (hashSub (sectionContents.headD "")))
  if groupTitle = "" then .ok none
  else
    let groupId := "group-" ++ s ++ "-" ++ titleToId groupTitle
    if 1 < sectionContents.length then
      match sectionToControl s sectionContents with
      | .error e => .error e
      | .ok ctrl =>
        .ok (some ⟨groupId, s ++ " " ++ groupTitle,
          some (pyReplace groupId "group" "control", groupTitle ++ " Controls", ctrl)⟩)
    else .ok (some ⟨groupId, s ++ " " ++ groupTitle, none⟩)

structure BuildSt where
  arena : List GNode
  parentStack : List ℕ
  sectionGroups : List ℕ
  deriving DecidableEq, Repr

/-- `add_subsection_to_parent` (lines 154-162), on the arena. -/
def addSubsectionToParent (arena : List GNode) (parent child : ℕ) : List GNode :=
  match arena.get? parent with
  | none => arena
  | some node => arena.set parent { node with groups := some (node.groups.getD [] ++ [child]) }

/-- Allocate the nodes of one section in the arena; returns the new arena
and the index of the section's group node. -/
def allocSection (arena : List GNode) (d : SectionData) : List GNode × ℕ :=
  match d.inner with
  | none => (arena ++ [⟨d.groupId, d.groupTitle, none, none⟩], arena.length)
  | some (cgId, cgTitle, ctrl) =>
    (arena ++ [⟨cgId, cgTitle, none, some [ctrl]⟩,
               ⟨d.groupId, d.groupTitle, some [arena.length], none⟩],
     arena.length + 1)

/-- The placement of one parsed group in the tree (lines 106-135), driven
by `section_depth` against `len(parent_stack)`. -/
def placeSection (st : BuildSt) (depth g : ℕ) : Except ParseErr BuildSt :=
  if depth = 1 then
    let stack' := if st.parentStack.isEmpty then [g] else st.parentStack.set 0 g
    .ok { st with parentStack := stack',
                  sectionGroups := st.sectionGroups ++ [stack'.headD g] }
  else if st.parentStack.length < depth then
    let stack' := st.parentStack ++ [g]
    match stack'.get? (depth - 2) with
    | none => .error .indexError
    | some p =>
      .ok ⟨addSubsectionToParent st.arena p g, stack', st.sectionGroups⟩
  else if depth = st.parentStack.length then
    let stack' := st.parentStack.set (depth - 1) g
    match stack'.get? (depth - 2) with
    | none => .error .indexError
    | some p =>
      .ok ⟨addSubsectionToParent st.arena p g, stack', st.sectionGroups⟩
  else
    let stack' := (st.parentStack.take depth).set (depth - 1) g
    match stack'.get? (depth - 2) with
    | none => .error .indexError
    | some p =>
      .ok ⟨addSubsectionToParent st.arena p g, stack', st.sectionGroups⟩

structure LoopSt where
  toc : List ℕ
  build : BuildSt
  backmatter : Option (List Resource)
  deriving DecidableEq, Repr

/-- The `for section in sections[1:]` loop of `common_policy_to_catalog`
(lines 72-137). -/
def buildLoopGo : List (List String) → LoopSt → Except ParseErr LoopSt
  | [], st => .ok st
  | sec :: rest, st =>
    let h := sec.headD ""
    if pyIn "Table of Contents" h then buildLoopGo rest st
    else if pyIn "References" h || pyIn "Bibliography" h then
      match parseBackmatter (sec.drop 1) with
      | .error e => .error e
      | .ok res => buildLoopGo rest { st with backmatter := some res }
    else
      let depth := (h.data.takeWhile (· = '#')).length
      if depth = 0 then .error .noSectionTitle
      else
        match sectionToGroupData st.toc sec depth with
        | .error e => .error e
        | .ok none => buildLoopGo rest st
        | .ok (some d) =>
          if 9 < depth then .error .indexError
          else
            let toc' := tocUpdate st.toc depth
            let alloc := allocSection st.build.arena d
            match placeSection { st.build with arena := alloc.1 } depth alloc.2 with
            | .error e => .error e
            | .ok b' => buildLoopGo rest ⟨toc', b', st.backmatter⟩

/-- The reference graph the parse hands to the external serializer:
metadata, the group arena with the indices of the top-level groups, and
the back-matter resources. -/
structure CatalogRes where
  metadata : Metadata
  arena : List GNode
  groups : List ℕ
  backMatter : List Resource
  deriving DecidableEq, Repr

/-- `common_policy_to_catalog` (lines 36-151) end to end. -/
def commonPolicyToCatalog (commonPolicy : List String) : Except ParseErr CatalogRes :=
  let sections := splitSections commonPolicy
  match sections.head? with
  | none => .error .indexError
  | some intro =>
    match parseMetadata intro with
    | .error e => .error e
    | .ok md =>
      match buildLoopGo (sections.drop 1) ⟨initTocPos, ⟨[], [], []⟩, none⟩ with
      | .error e => .error e
      | .ok st =>
        match st.backmatter with
        | some bm => .ok ⟨md, st.build.arena, st.build.sectionGroups, bm⟩
        | none =>
          match parseBackmatter [] with
          | .error e => .error e
          | .ok bm => .ok ⟨md, st.build.arena, st.build.sectionGroups, bm⟩

/-! ### Spec-side comparison definitions -/

/-- The ordinal scheme as the spec words it (§4.2): the dot-joined,
*non-zero* prefix of the counters up to the depth. -/
def specNonZeroOrdinal (pos : List ℕ) (depth : ℕ) : String :=
  dotJoin (((pos.take depth).takeWhile (· ≠ 0)).map Nat.repr)

/-- Content fragments of one table cell: plain character data, or data
wrapped in one inline style tag. -/
inductive CellFrag where
  | plain (s : String)
  | styled (tag : String) (s : String)
  deriving DecidableEq, Repr

def isStyled : CellFrag → Bool
  | .styled _ _ => true
  | .plain _ => false

def fragText : CellFrag → String
  | .plain s => s
  | .styled _ s => s

def fragEvents : CellFrag → List HtmlEvent
  | .plain s => [.chars s]
  | .styled t s => [.startTag t, .chars s, .endTag t]

def cellEvents (frags : List CellFrag) : List HtmlEvent :=
  HtmlEvent.startTag "td" :: (frags.flatMap fragEvents ++ [HtmlEvent.endTag "td"])

def rowEvents (cells : List (List CellFrag)) : List HtmlEvent :=
  HtmlEvent.startTag "tr" :: (cells.flatMap cellEvents ++ [HtmlEvent.endTag "tr"])

/-- The event stream of a well-formed N×M HTML table. -/
def tableEvents (rows : List (List (List CellFrag))) : List HtmlEvent :=
  HtmlEvent.startTag "table" :: (rows.flatMap rowEvents ++ [HtmlEvent.endTag "table"])

/-- One fragment's contribution to a cell as the code renders it:
character data as-is, a space appended at a styled fragment's end tag. -/
def fragOut : CellFrag → String
  | .plain s => s
  | .styled _ s => s ++ " "

/-- What the code produces for one cell. -/
def cellRendered : List CellFrag → String
  | [] => ""
  | f :: rest => fragOut f ++ cellRendered rest

/-- Cell text as the spec words it: the visible text content with exactly
one space inserted between adjacent styled fragments and none elsewhere. -/
def specCellText : List CellFrag → String
  | [] => ""
  | [f] => fragText f
  | f :: f' :: rest =>
    fragText f ++ (if isStyled f && isStyled f' then " " else "") ++ specCellText (f' :: rest)

/-! ### Claims -/

/-- C1: the Line Segmenter is claimed to emit the front-matter block plus
one block per header, the block of the last header included, and a single
front-matter block for a zero-header document.  The code never flushes the
block still open when the input ends: on `["# A", "x"]` it returns only
the empty front-matter block, dropping the `# A` block, and on a
zero-header document `["x"]` it returns no blocks at all.  This
contradicts the source's own account of the loop ("we have now parsed the
policy into a list of lists, where each outer list represents a section of
the document", lines 56-57) — a missing final flush. -/
theorem C1_segmenter_drops_last_block :
    splitSections ["# A", "x"] = [[]] ∧ splitSections ["x"] = [] := by decide

def c2Input : List String :=
  ["# Introduction", "Version 1.0", "January 1, 2020",
   "# Scope", "This is the scope.", "## Applicability", "Applies broadly."]

/-- C2 counterexample: on the claimed end-to-end input the parse does not
succeed at all, so the claimed metadata and group structure do not exist. -/
theorem C2_scenario_fails : (commonPolicyToCatalog c2Input).isOk = false := by decide

/-- C2 amended: on that input the front-matter block — the lines before
the first header — is empty (`# Introduction` starts a section block), so
the metadata extractor finds neither version nor date and the parse aborts
with the incomplete-metadata error.  (The final `## Applicability` block
is additionally dropped by the segmenter, cf. C1.) -/
theorem C2_scenario_incomplete_metadata :
    (splitSections c2Input).head? = some [] ∧
    commonPolicyToCatalog c2Input = .error .incompleteMetadata := by decide

def c3Input : List String :=
  ["Version 1.0", "January 1, 2020",
   "# Scope", "This is the scope.", "## Applicability", "Applies broadly.", "# End"]

/-- C3 counterexample: the ordinal string is joined from the *full*
counter prefix, zeros included, so the first depth-2 header after a
depth-1 header is numbered "2.0" (its group id is
`group-2.0-applicability`), whereas the claimed non-zero-prefix rule
would number it "2". -/
theorem C3_zero_entries_appear :
    (commonPolicyToCatalog c3Input).map (fun cat => cat.arena.map GNode.id) =
      .ok ["control-1-scope", "group-1-scope",
           "control-2.0-applicability", "group-2.0-applicability"] ∧
    secNum (tocUpdate initTocPos 1) 2 = "2.0" ∧
    specNonZeroOrdinal (tocUpdate initTocPos 1) 2 = "2" ∧
    ("2.0" : String) ≠ "2" := by decide

/-- C4 counterexample: the regex `^(.*)\s*(http.*)\s*$` is greedy, so the
split is at the *last* `http` occurrence, not the first; and the row loop
iterates over *all* rows — no header row is dropped — so two rows with
URLs yield two resources, contradicting the claimed `rows - 1` bound. -/
theorem C4_last_http_and_no_header_drop :
    parseBackmatterRows [["T", "a http://x b http://y"]] =
      .ok [⟨"T", "a http://x b ", "http://y"⟩] ∧
    ("a http://x b " : String) ≠ "a " ∧
    parseBackmatterRows [["T", "http://x"], ["U", "http://y"]] =
      .ok [⟨"T", "", "http://x"⟩, ⟨"U", "", "http://y"⟩] := by decide

/-- C5 counterexample: `re.sub("<.*>", "", ...)` is greedy, not
nongreedy: on `"a<x>b<y>c"` it removes from the first `<` through the
last `>`, producing `"ac"`, not the claimed `"abc"`. -/
theorem C5_strip_markup_is_greedy :
    stripHtmlFromText "a<x>b<y>c" = "ac" ∧ ("ac" : String) ≠ "abc" := by decide

/-- C6 counterexample: a space is appended to the open cell at *every*
non-`td` end tag, so a cell whose content ends with a styled fragment
carries a trailing space: the 1×1 table with cell `<b>x</b>` yields
`"x "`, while the claimed text (tags stripped, single inserted separator
spaces, nothing else) is `"x"`. -/
theorem C6_trailing_space_after_styled :
    (tpRun (tableEvents [[[CellFrag.styled "b" "x"]]])).parsedTable = [["x "]] ∧
    specCellText [CellFrag.styled "b" "x"] = "x" ∧
    ("x " : String) ≠ "x" := by decide

/-- C8 counterexample: a front-matter line containing `"Version "` with
nothing after it leaves the extracted version empty — the code treats the
version as missing and aborts even though a line containing `"Version "`
was present and a publication date was found, contradicting the claimed
"if and only if". -/
theorem C8_version_line_can_still_abort :
    parseMetadata ["Version ", "January 1, 2020"] = .error .incompleteMetadata ∧
    pyIn "Version " "Version " = true ∧
    parseUSDate "January 1, 2020" = some ⟨2020, 1, 1⟩ := by decide

/-- C10 counterexample: Python's negative indexing makes the backward
walk wrap past index 0 to the end of the list, so an opening `<table` that
sits *after* the starting index is still found and no IndexError is
raised: with contents `["x", "y", "<table>"]` and `table_end_line = 0`
no line at or before the starting index 1 contains `<table`, yet the call
returns an (empty) table instead of aborting. -/
theorem C10_wraparound_finds_late_open :
    parseHtmlTable ["x", "y", "<table>"] 0 = .ok [] ∧
    pyIn "<table" "x" = false ∧ pyIn "<table" "y" = false := by decide

/-! digits -/

/-- Structural companion of `Nat.toDigitsCore` at base 10. -/
def decChars (n : ℕ) : List Char :=
  if n < 10 then [Nat.digitChar n]
  else decChars (n / 10) ++ [Nat.digitChar (n % 10)]
  decreasing_by exact Nat.div_lt_self (by omega) (by norm_num)

theorem digitChar_isDigit (k : ℕ) (h : k < 10) : (Nat.digitChar k).isDigit = true := by
  interval_cases k <;> decide

theorem digitChar_val (k : ℕ) (h : k < 10) : (Nat.digitChar k).toNat - 48 = k := by
  interval_cases k <;> decide

theorem toDigitsCore_eq_decChars :
    ∀ fuel n acc, n < fuel → Nat.toDigitsCore 10 fuel n acc = decChars n ++ acc := by
  intro fuel
  induction fuel with
  | zero => intro n acc h; omega
  | succ fuel ih =>
    intro n acc h
    rw [Nat.toDigitsCore]
    show (if n / 10 = 0 then Nat.digitChar (n % 10) :: acc
          else Nat.toDigitsCore 10 fuel (n / 10) (Nat.digitChar (n % 10) :: acc)) =
        decChars n ++ acc
    by_cases h10 : n < 10
    · have hz : n / 10 = 0 := Nat.div_eq_of_lt h10
      conv_rhs => rw [decChars]
      rw [if_pos hz, if_pos h10, Nat.mod_eq_of_lt h10]
      rfl
    · have hnz : ¬ n / 10 = 0 := by
        have h1 : 1 ≤ n / 10 := (Nat.one_le_div_iff (by norm_num)).mpr (by omega)
        omega
      have hlt : n / 10 < fuel := by
        have h1 : n / 10 < n := Nat.div_lt_self (by omega) (by norm_num)
        omega
      conv_rhs => rw [decChars]
      rw [if_neg hnz, if_neg h10, ih (n / 10) _ hlt]
      simp

theorem reprData (n : ℕ) : (Nat.repr n).data = decChars n := by
  show (Nat.toDigits 10 n).asString.data = decChars n
  rw [Nat.toDigits, toDigitsCore_eq_decChars (n + 1) n [] (Nat.lt_succ_self n)]
  simp [List.asString]

theorem decChars_isDigit (n : ℕ) : ∀ c ∈ decChars n, c.isDigit = true := by
  induction n using Nat.strong_induction_on with
  | _ n ih =>
    rw [decChars]
    by_cases h10 : n < 10
    · simp only [if_pos h10, List.mem_singleton]
      rintro c rfl
      exact digitChar_isDigit n h10
    · simp only [if_neg h10, List.mem_append, List.mem_singleton]
      rintro c (hc | rfl)
      · exact ih (n / 10) (Nat.div_lt_self (by omega) (by norm_num)) c hc
      · exact digitChar_isDigit _ (Nat.mod_lt _ (by norm_num))

theorem decChars_ne_nil (n : ℕ) : decChars n ≠ [] := by
  rw [decChars]
  by_cases h10 : n < 10 <;> simp [h10]

theorem decVal_append (xs : List Char) (c : Char) :
    decVal (xs ++ [c]) = decVal xs * 10 + (c.toNat - 48) := by
  simp [decVal, List.foldl_append]

theorem decVal_decChars (n : ℕ) : decVal (decChars n) = n := by
  induction n using Nat.strong_induction_on with
  | _ n ih =>
    rw [decChars]
    by_cases h10 : n < 10
    · simp only [if_pos h10]
      have h0 : ([Nat.digitChar n] : List Char) = [] ++ [Nat.digitChar n] := rfl
      rw [h0, decVal_append, digitChar_val n h10]
      show 0 * 10 + n = n
      omega
    · simp only [if_neg h10]
      rw [decVal_append, ih (n / 10) (Nat.div_lt_self (by omega) (by norm_num)),
        digitChar_val _ (Nat.mod_lt _ (by norm_num))]
      omega

theorem repr_inj {a b : ℕ} (h : Nat.repr a = Nat.repr b) : a = b := by
  have hd : decChars a = decChars b := by
    rw [← reprData, ← reprData, h]
  calc a = decVal (decChars a) := (decVal_decChars a).symm
    _ = decVal (decChars b) := by rw [hd]
    _ = b := decVal_decChars b

/-! dotjoin -/

def dotJoinC : List (List Char) → List Char
  | [] => []
  | [p] => p
  | p :: rest => p ++ '.' :: dotJoinC rest

theorem dotJoin_data (l : List String) : (dotJoin l).data = dotJoinC (l.map String.data) := by
  induction l with
  | nil => rfl
  | cons s rest ih =>
    cases rest with
    | nil => rfl
    | cons t ts =>
      show (s ++ "." ++ sepJoin "." (t :: ts)).data =
        s.data ++ '.' :: dotJoinC ((t :: ts).map String.data)
      rw [String.data_append, String.data_append, ← ih]
      show s.data ++ ['.'] ++ (dotJoin (t :: ts)).data = _
      simp [List.append_assoc]

def splitDots : List Char → List (List Char)
  | [] => [[]]
  | c :: cs =>
    match splitDots cs with
    | [] => [[c]]
    | p :: ps => if c = '.' then [] :: p :: ps else (c :: p) :: ps

theorem splitDots_ne_nil (cs : List Char) : splitDots cs ≠ [] := by
  cases cs with
  | nil => simp [splitDots]
  | cons c cs =>
    rw [splitDots]
    rcases h : splitDots cs with _ | ⟨p, ps⟩
    · simp
    · by_cases hc : c = '.' <;> simp [hc]

theorem splitDots_no_dot (xs : List Char) (h : '.' ∉ xs) : splitDots xs = [xs] := by
  induction xs with
  | nil => rfl
  | cons c cs ih =>
    have hc : ¬ c = '.' := fun hcc => h (by simp [hcc])
    have hcs : '.' ∉ cs := fun hmem => h (List.mem_cons_of_mem _ hmem)
    rw [splitDots, ih hcs]
    simp [hc]

theorem splitDots_append (xs ys : List Char) (h : '.' ∉ xs) :
    splitDots (xs ++ '.' :: ys) = xs :: splitDots ys := by
  induction xs with
  | nil =>
    show splitDots ('.' :: ys) = [] :: splitDots ys
    rw [splitDots]
    rcases hy : splitDots ys with _ | ⟨p, ps⟩
    · exact absurd hy (splitDots_ne_nil ys)
    · simp
  | cons c cs ih =>
    have hc : ¬ c = '.' := fun hcc => h (by simp [hcc])
    have hcs : '.' ∉ cs := fun hmem => h (List.mem_cons_of_mem _ hmem)
    show splitDots (c :: (cs ++ '.' :: ys)) = (c :: cs) :: splitDots ys
    rw [splitDots, ih hcs]
    simp [hc]

def parseDotted (s : String) : List ℕ := (splitDots s.data).map decVal

theorem decChars_no_dot (n : ℕ) : '.' ∉ decChars n := by
  intro h
  have := decChars_isDigit n '.' h
  simp at this

theorem splitDots_dotJoinC : ∀ ps : List (List Char), ps ≠ [] → (∀ p ∈ ps, '.' ∉ p) →
    splitDots (dotJoinC ps) = ps := by
  intro ps
  induction ps with
  | nil => intro h; exact absurd rfl h
  | cons p rest ih =>
    intro _ hall
    cases rest with
    | nil =>
      show splitDots p = [p]
      exact splitDots_no_dot p (hall p (by simp))
    | cons q rest2 =>
      show splitDots (p ++ '.' :: dotJoinC (q :: rest2)) = p :: q :: rest2
      rw [splitDots_append _ _ (hall p (by simp)),
        ih (by simp) (fun r hr => hall r (List.mem_cons_of_mem _ hr))]

theorem parseDotted_dotJoin (l : List ℕ) (h : l ≠ []) :
    parseDotted (dotJoin (l.map Nat.repr)) = l := by
  unfold parseDotted
  rw [dotJoin_data, List.map_map]
  have hmap : l.map (String.data ∘ Nat.repr) = l.map decChars :=
    List.map_congr_left (fun x _ => reprData x)
  rw [hmap, splitDots_dotJoinC _ (by simp [h])
    (by intro p hp; obtain ⟨n, _, rfl⟩ := List.mem_map.mp hp; exact decChars_no_dot n)]
  rw [List.map_map]
  have : l.map (decVal ∘ decChars) = l.map id :=
    List.map_congr_left (fun x _ => decVal_decChars x)
  simpa using this

theorem dotJoin_repr_inj {a b : List ℕ} (ha : a ≠ []) (hb : b ≠ [])
    (h : dotJoin (a.map Nat.repr) = dotJoin (b.map Nat.repr)) : a = b := by
  calc a = parseDotted (dotJoin (a.map Nat.repr)) := (parseDotted_dotJoin a ha).symm
    _ = parseDotted (dotJoin (b.map Nat.repr)) := by rw [h]
    _ = b := parseDotted_dotJoin b hb

theorem secNum_eq (pos : List ℕ) (d : ℕ) :
    secNum pos d = dotJoin ((pos.take d).map Nat.repr) := by
  unfold secNum
  rw [← List.map_take]

theorem dotJoinC_mem {c : Char} : ∀ ps : List (List Char), c ∈ dotJoinC ps →
    (∃ p ∈ ps, c ∈ p) ∨ c = '.' := by
  intro ps
  induction ps with
  | nil => intro h; simp [dotJoinC] at h
  | cons p rest ih =>
    intro hc
    cases rest with
    | nil => exact Or.inl ⟨p, by simp, hc⟩
    | cons q rest2 =>
      rcases List.mem_append.mp hc with hp | hq
      · exact Or.inl ⟨p, by simp, hp⟩
      · rcases List.mem_cons.mp hq with rfl | hrest
        · exact Or.inr rfl
        · rcases ih hrest with ⟨r, hr, hcr⟩ | hdot
          · exact Or.inl ⟨r, List.mem_cons_of_mem _ hr, hcr⟩
          · exact Or.inr hdot

theorem secNum_chars (pos : List ℕ) (d : ℕ) :
    ∀ c ∈ (secNum pos d).data, c.isDigit = true ∨ c = '.' := by
  intro c hc
  rw [secNum_eq, dotJoin_data, List.map_map] at hc
  have hmap : (pos.take d).map (String.data ∘ Nat.repr) = (pos.take d).map decChars :=
    List.map_congr_left (fun x _ => reprData x)
  rw [hmap] at hc
  rcases dotJoinC_mem _ hc with ⟨p, hp, hcp⟩ | hdot
  · obtain ⟨n, _, rfl⟩ := List.mem_map.mp hp
    exact Or.inl (decChars_isDigit n c hcp)
  · exact Or.inr hdot

theorem secNum_no_hyphen (pos : List ℕ) (d : ℕ) :
    ∀ c ∈ (secNum pos d).data, c ≠ '-' := by
  intro c hc hcc
  rcases secNum_chars pos d c hc with hd | hd <;> rw [hcc] at hd <;> simp at hd

theorem secNum_no_g (pos : List ℕ) (d : ℕ) :
    ∀ c ∈ (secNum pos d).data, c ≠ 'g' := by
  intro c hc hcc
  rcases secNum_chars pos d c hc with hd | hd <;> rw [hcc] at hd <;> simp at hd

/-! lex -/

def lexLt : List ℕ → List ℕ → Prop
  | _, [] => False
  | [], _ :: _ => True
  | a :: as, b :: bs => a < b ∨ (a = b ∧ lexLt as bs)

def lexLe (a b : List ℕ) : Prop := lexLt a b ∨ a = b

theorem lexLt_irrefl : ∀ l : List ℕ, ¬ lexLt l l := by
  intro l
  induction l with
  | nil => simp [lexLt]
  | cons a as ih =>
    rw [lexLt]
    push_neg
    exact ⟨by omega, fun _ => ih⟩

theorem lexLt_trans : ∀ a b c : List ℕ, lexLt a b → lexLt b c → lexLt a c := by
  intro a
  induction a with
  | nil =>
    intro b c hab hbc
    cases c with
    | nil => cases b <;> simp [lexLt] at hab hbc
    | cons z zs => simp [lexLt]
  | cons x xs ih =>
    intro b c hab hbc
    cases b with
    | nil => simp [lexLt] at hab
    | cons y ys =>
      cases c with
      | nil => simp [lexLt] at hbc
      | cons z zs =>
        rw [lexLt] at hab hbc ⊢
        rcases hab with h1 | ⟨rfl, h1⟩ <;> rcases hbc with h2 | ⟨rfl, h2⟩
        · exact Or.inl (by omega)
        · exact Or.inl h1
        · exact Or.inl h2
        · exact Or.inr ⟨rfl, ih ys zs h1 h2⟩

theorem lexLt_ne {a b : List ℕ} (h : lexLt a b) : a ≠ b :=
  fun heq => absurd (heq ▸ h) (lexLt_irrefl b)

theorem lexLt_of_lt_of_le {a b c : List ℕ} (h1 : lexLt a b) (h2 : lexLe b c) : lexLt a c := by
  rcases h2 with h2 | rfl
  · exact lexLt_trans a b c h1 h2
  · exact h1

theorem lexLe_trans {a b c : List ℕ} (h1 : lexLe a b) (h2 : lexLe b c) : lexLe a c := by
  rcases h1 with h1 | rfl
  · exact Or.inl (lexLt_of_lt_of_le h1 h2)
  · exact h2

theorem lexLt_append : ∀ (xs : List ℕ) {a b : ℕ} (u v : List ℕ), a < b →
    lexLt (xs ++ a :: u) (xs ++ b :: v) := by
  intro xs
  induction xs with
  | nil => intro a b u v h; exact Or.inl h
  | cons x xs ih => intro a b u v h; exact Or.inr ⟨rfl, ih u v h⟩

/-! tocUpdate lemmas -/

theorem tocUpdate_length (pos : List ℕ) (d : ℕ) (h9 : pos.length = 9)
    (h1 : 1 ≤ d) (hd : d ≤ 9) : (tocUpdate pos d).length = 9 := by
  unfold tocUpdate
  simp [List.length_take, h9]
  omega

theorem tocUpdate_take_small (pos : List ℕ) (d L : ℕ) (h9 : pos.length = 9)
    (hd : d ≤ 9) (hL : L ≤ d - 1) : (tocUpdate pos d).take L = pos.take L := by
  unfold tocUpdate
  rw [List.append_assoc, List.take_append_eq_append_take]
  have hlen : (pos.take (d - 1)).length = d - 1 := by
    simp [List.length_take]; omega
  rw [hlen]
  have hz : L - (d - 1) = 0 := by omega
  rw [hz, List.take_zero, List.append_nil, List.take_take]
  congr 1
  omega

theorem tocUpdate_take_ge (pos : List ℕ) (d L : ℕ) (h9 : pos.length = 9)
    (h1 : 1 ≤ d) (hd : d ≤ L) (hL : L ≤ 9) :
    lexLt (pos.take L) ((tocUpdate pos d).take L) := by
  have hd9 : d ≤ 9 := le_trans hd hL
  have hidx : d - 1 < pos.length := by omega
  have hlhs : pos.take L = pos.take (d - 1) ++ pos[d - 1] :: (pos.drop d).take (L - d) := by
    have hL' : L = (d - 1) + (L - d + 1) := by omega
    rw [hL', List.take_add, List.drop_eq_getElem_cons hidx]
    have : d - 1 + 1 = d := by omega
    rw [this]
    simp
    omega
  have hgetd : pos.getD (d - 1) 0 = pos[d - 1] := by
    rw [List.getD_eq_getElem?_getD, List.getElem?_eq_getElem hidx]
    rfl
  have hrhs : (tocUpdate pos d).take L =
      pos.take (d - 1) ++ (pos[d - 1] + 1) :: (List.replicate (9 - d) 0).take (L - d) := by
    unfold tocUpdate
    rw [List.append_assoc, List.take_append_eq_append_take, List.take_take]
    have hlen : (pos.take (d - 1)).length = d - 1 := by
      simp [List.length_take]; omega
    have hmin : min L (d - 1) = d - 1 := by omega
    rw [hlen, hmin]
    have hsucc : L - (d - 1) = (L - d) + 1 := by omega
    rw [hsucc, List.singleton_append, List.take_succ_cons, hgetd]
  rw [hlhs, hrhs]
  exact lexLt_append _ _ _ (by omega)

theorem tocUpdate_take_le (pos : List ℕ) (d L : ℕ) (h9 : pos.length = 9)
    (h1 : 1 ≤ d) (hd9 : d ≤ 9) (hL : L ≤ 9) :
    lexLe (pos.take L) ((tocUpdate pos d).take L) := by
  by_cases h : d ≤ L
  · exact Or.inl (tocUpdate_take_ge pos d L h9 h1 h hL)
  · exact Or.inr (tocUpdate_take_small pos d L h9 hd9 (by omega)).symm

theorem parseDotted_secNum (pos : List ℕ) (d : ℕ) (h9 : pos.length = 9) (h1 : 1 ≤ d) :
    parseDotted (secNum pos d) = pos.take d := by
  rw [secNum_eq]
  apply parseDotted_dotJoin
  intro h
  have hlen := congrArg List.length h
  simp [List.length_take, h9] at hlen
  omega

theorem tocUpdate_getD (pos : List ℕ) (d : ℕ) (h9 : pos.length = 9)
    (h1 : 1 ≤ d) (hd : d ≤ 9) :
    ∀ i, i < 9 → (tocUpdate pos d).getD i 0 =
      if i < d - 1 then pos.getD i 0
      else if i = d - 1 then pos.getD (d - 1) 0 + 1 else 0 := by
  intro i hi
  unfold tocUpdate
  rw [List.append_assoc, List.getD_eq_getElem?_getD, List.getD_eq_getElem?_getD]
  have hlen : (pos.take (d - 1)).length = d - 1 := by
    simp [List.length_take]; omega
  by_cases hcase1 : i < d - 1
  · rw [List.getElem?_append_left (by rw [hlen]; omega), List.getElem?_take_of_lt hcase1]
    simp [hcase1]
  · rw [List.getElem?_append_right (by rw [hlen]; omega), hlen]
    by_cases hcase2 : i = d - 1
    · subst hcase2
      simp only [Nat.sub_self, if_neg hcase1, if_pos rfl]
      rw [List.singleton_append]
      simp [List.getD_eq_getElem?_getD]
    · have hpos : 1 ≤ i - (d - 1) := by omega
      rw [List.singleton_append]
      have hidx : i - (d - 1) = (i - (d - 1) - 1) + 1 := by omega
      rw [hidx, List.getElem?_cons_succ, List.getElem?_replicate]
      have : i - (d - 1) - 1 < 9 - d := by omega
      simp [this, hcase1, hcase2]

/-! fields -/

def field0 (s : String) : String := ⟨s.data.takeWhile (fun c => c ≠ '-')⟩

def field1 (s : String) : String :=
  ⟨((s.data.dropWhile (fun c => c ≠ '-')).drop 1).takeWhile (fun c => c ≠ '-')⟩

theorem takeWhile_hyphen_append (xs ys : List Char) (h : ∀ c ∈ xs, c ≠ '-') :
    (xs ++ '-' :: ys).takeWhile (fun c => c ≠ '-') = xs := by
  induction xs with
  | nil =>
    rw [List.nil_append, List.takeWhile_cons_of_neg (by simp)]
  | cons c cs ih =>
    rw [List.cons_append, List.takeWhile_cons]
    have hc : c ≠ '-' := h c (by simp)
    rw [if_pos (by simp [hc]), ih (fun x hx => h x (List.mem_cons_of_mem _ hx))]

theorem dropWhile_hyphen_append (xs ys : List Char) (h : ∀ c ∈ xs, c ≠ '-') :
    (xs ++ '-' :: ys).dropWhile (fun c => c ≠ '-') = '-' :: ys := by
  induction xs with
  | nil =>
    rw [List.nil_append, List.dropWhile_cons_of_neg (by simp)]
  | cons c cs ih =>
    rw [List.cons_append, List.dropWhile_cons]
    have hc : c ≠ '-' := h c (by simp)
    rw [if_pos (by simp [hc])]
    exact ih (fun x hx => h x (List.mem_cons_of_mem _ hx))

theorem fields_of_shape (idStr : String) (k s g : List Char)
    (hshape : idStr.data = k ++ '-' :: (s ++ '-' :: g))
    (hk : ∀ c ∈ k, c ≠ '-') (hs : ∀ c ∈ s, c ≠ '-') :
    field0 idStr = ⟨k⟩ ∧ field1 idStr = ⟨s⟩ := by
  constructor
  · unfold field0
    rw [hshape, takeWhile_hyphen_append _ _ hk]
  · unfold field1
    rw [hshape, dropWhile_hyphen_append _ _ hk]
    show String.mk ((s ++ '-' :: g).takeWhile (fun c => c ≠ '-')) = ⟨s⟩
    rw [takeWhile_hyphen_append _ _ hs]

/-! replace lemmas -/

theorem replGo_skip : ∀ (zs : List Char) (pat rep ys : List Char),
    replGo pat rep zs.length (zs ++ ys) = replGo pat rep 0 ys := by
  intro zs
  induction zs with
  | nil => intro pat rep ys; rfl
  | cons z zs ih =>
    intro pat rep ys
    show replGo pat rep (zs.length + 1) (z :: (zs ++ ys)) = replGo pat rep 0 ys
    rw [replGo]
    exact ih pat rep ys

theorem replGo_group_head (ys : List Char) :
    replGo "group".data "control".data 0 ("group".data ++ ys) =
      "control".data ++ replGo "group".data "control".data 0 ys := by
  show replGo "group".data "control".data 0 ('g' :: ('r' :: 'o' :: 'u' :: 'p' :: ys)) = _
  rw [replGo]
  have hcond : 0 < ("group".data).length ∧
      ('g' :: ('r' :: 'o' :: 'u' :: 'p' :: ys)).take ("group".data).length = "group".data := by
    constructor
    · decide
    · show ("group".data ++ ys).take ("group".data).length = "group".data
      rw [List.take_append_of_le_length (le_refl _), List.take_length]
  rw [if_pos hcond]
  have hskip : replGo "group".data "control".data (("group".data).length - 1)
      ('r' :: 'o' :: 'u' :: 'p' :: ys) = replGo "group".data "control".data 0 ys := by
    show replGo "group".data "control".data ("roup".data).length ("roup".data ++ ys) = _
    exact replGo_skip "roup".data _ _ ys
  rw [hskip]

theorem replGo_no_g : ∀ (xs ys : List Char), (∀ c ∈ xs, c ≠ 'g') →
    replGo "group".data "control".data 0 (xs ++ ys) =
      xs ++ replGo "group".data "control".data 0 ys := by
  intro xs
  induction xs with
  | nil => intro ys h; rfl
  | cons c cs ih =>
    intro ys h
    show replGo "group".data "control".data 0 (c :: (cs ++ ys)) = _
    rw [replGo]
    have hnc : ¬ (0 < ("group".data).length ∧
        (c :: (cs ++ ys)).take ("group".data).length = "group".data) := by
      rintro ⟨-, hc⟩
      have hhead := congrArg (fun l => l.headD ' ') hc
      simp at hhead
      exact h c (by simp) hhead
    rw [if_neg hnc, ih ys (fun x hx => h x (List.mem_cons_of_mem _ hx))]
    rfl

theorem pyReplace_group_id (s t : String) (hs : ∀ c ∈ s.data, c ≠ 'g') :
    (pyReplace ("group-" ++ s ++ "-" ++ t) "group" "control").data =
      "control".data ++ '-' :: (s.data ++ '-' ::
        replGo "group".data "control".data 0 t.data) := by
  show replGo "group".data "control".data 0 ("group-" ++ s ++ "-" ++ t).data = _
  have hdata : ("group-" ++ s ++ "-" ++ t).data =
      "group".data ++ (('-' :: s.data ++ ['-']) ++ t.data) := by
    simp [String.data_append]
  rw [hdata, replGo_group_head, replGo_no_g ('-' :: s.data ++ ['-']) t.data (by
    intro c hc
    rcases (by simpa using hc : c = '-' ∨ c ∈ s.data ∨ c = '-') with rfl | hc2 | rfl
    · decide
    · exact hs c hc2
    · decide)]
  rw [List.cons_append, List.append_assoc]
  simp

/-! id shapes -/

theorem group_id_shape (s t : String) :
    ("group-" ++ s ++ "-" ++ t).data = "group".data ++ '-' :: (s.data ++ '-' :: t.data) := by
  have h1 : ("group-" ++ s ++ "-" ++ t).data = "group-".data ++ s.data ++ "-".data ++ t.data := by
    simp [String.data_append]
  rw [h1, List.append_assoc, List.append_assoc]
  rfl

theorem ctrl_id_shape (s t : String) :
    ("ctrl-" ++ s ++ "-" ++ t).data = "ctrl".data ++ '-' :: (s.data ++ '-' :: t.data) := by
  have h1 : ("ctrl-" ++ s ++ "-" ++ t).data = "ctrl-".data ++ s.data ++ "-".data ++ t.data := by
    simp [String.data_append]
  rw [h1, List.append_assoc, List.append_assoc]
  rfl

theorem group_id_fields (s t : String) (hs : ∀ c ∈ s.data, c ≠ '-') :
    field0 ("group-" ++ s ++ "-" ++ t) = "group" ∧
    field1 ("group-" ++ s ++ "-" ++ t) = s :=
  fields_of_shape _ _ _ _ (group_id_shape s t) (by decide) hs

theorem ctrl_id_fields (s t : String) (hs : ∀ c ∈ s.data, c ≠ '-') :
    field0 ("ctrl-" ++ s ++ "-" ++ t) = "ctrl" ∧
    field1 ("ctrl-" ++ s ++ "-" ++ t) = s :=
  fields_of_shape _ _ _ _ (ctrl_id_shape s t) (by decide) hs

theorem ctrlgroup_id_fields (s t : String) (hs : ∀ c ∈ s.data, c ≠ '-')
    (hg : ∀ c ∈ s.data, c ≠ 'g') :
    field0 (pyReplace ("group-" ++ s ++ "-" ++ t) "group" "control") = "control" ∧
    field1 (pyReplace ("group-" ++ s ++ "-" ++ t) "group" "control") = s :=
  fields_of_shape _ _ _ _ (pyReplace_group_id s t hg) (by decide) hs

/-! collectIds -/

/-- The group/control identifiers generated for one ordinary section
(`section_to_group` lines 185-197, `section_to_control` line 222). -/
def sectionIdList (pos : List ℕ) (depth : ℕ) (title : String) (body : Bool) : List String :=
  let s := secNum pos depth
  let gid := "group-" ++ s ++ "-" ++ titleToId title
  gid :: (if body then
    [pyReplace gid "group" "control", "ctrl-" ++ s ++ "-" ++ titleToId title] else [])

/-- All identifiers generated over a run of the section loop of
`common_policy_to_catalog`, with its classification, blank-title skip and
counter update. -/
def collectIds (pos : List ℕ) : List (List String) → List String
  | [] => []
  | sec :: rest =>
    let h := sec.headD ""
    if pyIn "Table of Contents" h then collectIds pos rest
    else if pyIn "References" h || pyIn "Bibliography" h then collectIds pos rest
    else
      let depth := (h.data.takeWhile (· = '#')).length
      let title := stripHtmlFromText (pyStrip (hashSub h))
      if title = "" then collectIds pos rest
      else sectionIdList pos depth title (1 < sec.length) ++
        collectIds (tocUpdate pos depth) rest

/-- A section block an accepted parse can contain: a table-of-contents or
bibliography block, a blank-title block, or an ordinary block of depth 1-9
(depth 0 or a depth above 9 aborts the parse). -/
def secDepthOk (sec : List String) : Prop :=
  pyIn "Table of Contents" (sec.headD "") = true ∨
  pyIn "References" (sec.headD "") = true ∨
  pyIn "Bibliography" (sec.headD "") = true ∨
  stripHtmlFromText (pyStrip (hashSub (sec.headD ""))) = "" ∨
  (1 ≤ (((sec.headD "").data.takeWhile (· = '#')).length) ∧
    (((sec.headD "").data.takeWhile (· = '#')).length) ≤ 9)

theorem sectionIdList_field1 (pos : List ℕ) (depth : ℕ) (title : String) (body : Bool) :
    ∀ id ∈ sectionIdList pos depth title body, field1 id = secNum pos depth := by
  intro id hid
  have hs := secNum_no_hyphen pos depth
  have hg := secNum_no_g pos depth
  unfold sectionIdList at hid
  rcases List.mem_cons.mp hid with rfl | hid2
  · exact (group_id_fields _ _ hs).2
  · rcases body with _ | _
    · simp at hid2
    · simp only [if_pos rfl] at hid2
      rcases List.mem_cons.mp hid2 with rfl | hid3
      · exact (ctrlgroup_id_fields _ _ hs hg).2
      · rcases List.mem_cons.mp hid3 with rfl | hid4
        · exact (ctrl_id_fields _ _ hs).2
        · simp at hid4

theorem sectionIdList_field0_map (pos : List ℕ) (depth : ℕ) (title : String) (body : Bool) :
    (sectionIdList pos depth title body).map field0 =
      if body then ["group", "control", "ctrl"] else ["group"] := by
  have hs := secNum_no_hyphen pos depth
  have hg := secNum_no_g pos depth
  rcases body with _ | _
  · show [field0 ("group-" ++ secNum pos depth ++ "-" ++ titleToId title)] = ["group"]
    rw [(group_id_fields _ _ hs).1]
  · show [field0 ("group-" ++ secNum pos depth ++ "-" ++ titleToId title),
      field0 (pyReplace ("group-" ++ secNum pos depth ++ "-" ++ titleToId title)
        "group" "control"),
      field0 ("ctrl-" ++ secNum pos depth ++ "-" ++ titleToId title)] =
      ["group", "control", "ctrl"]
    rw [(group_id_fields _ _ hs).1, (ctrlgroup_id_fields _ _ hs hg).1,
      (ctrl_id_fields _ _ hs).1]

theorem collectIds_lower : ∀ (secs : List (List String)) (pos : List ℕ),
    pos.length = 9 → (∀ sec ∈ secs, secDepthOk sec) →
    ∀ id ∈ collectIds pos secs, ∃ d pfx, 1 ≤ d ∧ d ≤ 9 ∧ pfx.length = d ∧
      lexLe (pos.take d) pfx ∧ field1 id = dotJoin (pfx.map Nat.repr) := by
  intro secs
  induction secs with
  | nil =>
    intro pos _ _ id hid
    simp [collectIds] at hid
  | cons sec rest ih =>
    intro pos h9 hok id hid
    have hokrest : ∀ s ∈ rest, secDepthOk s :=
      fun s hs => hok s (List.mem_cons_of_mem _ hs)
    simp only [collectIds] at hid
    by_cases htoc : pyIn "Table of Contents" (sec.headD "") = true
    · rw [if_pos htoc] at hid
      exact ih pos h9 hokrest id hid
    · rw [if_neg htoc] at hid
      by_cases href :
          (pyIn "References" (sec.headD "") || pyIn "Bibliography" (sec.headD "")) = true
      · rw [if_pos href] at hid
        exact ih pos h9 hokrest id hid
      · rw [if_neg href] at hid
        by_cases htitle : stripHtmlFromText (pyStrip (hashSub (sec.headD ""))) = ""
        · rw [if_pos htitle] at hid
          exact ih pos h9 hokrest id hid
        · rw [if_neg htitle] at hid
          have hrefs : ¬ pyIn "References" (sec.headD "") = true ∧
              ¬ pyIn "Bibliography" (sec.headD "") = true := by
            constructor
            · intro hh
              exact href (by simp only [Bool.or_eq_true]; exact Or.inl hh)
            · intro hh
              exact href (by simp only [Bool.or_eq_true]; exact Or.inr hh)
          have hdb : 1 ≤ (((sec.headD "").data.takeWhile (· = '#')).length) ∧
              (((sec.headD "").data.takeWhile (· = '#')).length) ≤ 9 := by
            rcases hok sec (by simp) with h | h | h | h | h
            · exact absurd h htoc
            · exact absurd h hrefs.1
            · exact absurd h hrefs.2
            · exact absurd h htitle
            · exact h
          set depth := (((sec.headD "").data.takeWhile (· = '#')).length) with hdepthdef
          rcases List.mem_append.mp hid with hhead | hrest
          · refine ⟨depth, pos.take depth, hdb.1, hdb.2, ?_, Or.inr rfl, ?_⟩
            · simp only [List.length_take, h9]
              omega
            · rw [sectionIdList_field1 pos depth _ _ id hhead, secNum_eq]
          · obtain ⟨d, pfx, hd1, hd9, hlen, hle, hf⟩ :=
              ih (tocUpdate pos depth)
                (tocUpdate_length pos depth h9 hdb.1 hdb.2) hokrest id hrest
            exact ⟨d, pfx, hd1, hd9, hlen,
              lexLe_trans (tocUpdate_take_le pos depth d h9 hdb.1 hdb.2 hd9) hle, hf⟩

theorem collectIds_nodup : ∀ (secs : List (List String)) (pos : List ℕ),
    pos.length = 9 → (∀ sec ∈ secs, secDepthOk sec) →
    (collectIds pos secs).Nodup := by
  intro secs
  induction secs with
  | nil =>
    intro pos _ _
    simp [collectIds]
  | cons sec rest ih =>
    intro pos h9 hok
    have hokrest : ∀ s ∈ rest, secDepthOk s :=
      fun s hs => hok s (List.mem_cons_of_mem _ hs)
    simp only [collectIds]
    by_cases htoc : pyIn "Table of Contents" (sec.headD "") = true
    · rw [if_pos htoc]
      exact ih pos h9 hokrest
    · rw [if_neg htoc]
      by_cases href :
          (pyIn "References" (sec.headD "") || pyIn "Bibliography" (sec.headD "")) = true
      · rw [if_pos href]
        exact ih pos h9 hokrest
      · rw [if_neg href]
        by_cases htitle : stripHtmlFromText (pyStrip (hashSub (sec.headD ""))) = ""
        · rw [if_pos htitle]
          exact ih pos h9 hokrest
        · rw [if_neg htitle]
          have hrefs : ¬ pyIn "References" (sec.headD "") = true ∧
              ¬ pyIn "Bibliography" (sec.headD "") = true := by
            constructor
            · intro hh
              exact href (by simp only [Bool.or_eq_true]; exact Or.inl hh)
            · intro hh
              exact href (by simp only [Bool.or_eq_true]; exact Or.inr hh)
          have hdb : 1 ≤ (((sec.headD "").data.takeWhile (· = '#')).length) ∧
              (((sec.headD "").data.takeWhile (· = '#')).length) ≤ 9 := by
            rcases hok sec (by simp) with h | h | h | h | h
            · exact absurd h htoc
            · exact absurd h hrefs.1
            · exact absurd h hrefs.2
            · exact absurd h htitle
            · exact h
          set depth := (((sec.headD "").data.takeWhile (· = '#')).length) with hdepthdef
          rw [List.nodup_append]
          refine ⟨?_, ih (tocUpdate pos depth)
            (tocUpdate_length pos depth h9 hdb.1 hdb.2) hokrest, ?_⟩
          · apply List.Nodup.of_map field0
            rw [sectionIdList_field0_map]
            by_cases hq : 1 < sec.length
            · rw [if_pos (by simp [hq])]
              decide
            · rw [if_neg (by simp [hq])]
              decide
          · intro a ha ha'
            obtain ⟨d, pfx, hd1, hd9, hlen, hle, hf⟩ :=
              collectIds_lower rest (tocUpdate pos depth)
                (tocUpdate_length pos depth h9 hdb.1 hdb.2) hokrest a ha'
            have hfa : field1 a = dotJoin ((pos.take depth).map Nat.repr) := by
              rw [sectionIdList_field1 pos depth _ _ a ha, secNum_eq]
            have heq : dotJoin ((pos.take depth).map Nat.repr) = dotJoin (pfx.map Nat.repr) := by
              rw [← hfa, hf]
            have htake_len : (pos.take depth).length = depth := by
              simp only [List.length_take, h9]
              omega
            have hlists : pos.take depth = pfx :=
              dotJoin_repr_inj
                (by intro hh; rw [hh] at htake_len; simp at htake_len; omega)
                (by intro hh; rw [hh] at hlen; simp at hlen; omega) heq
            by_cases hdd : d = depth
            · subst hdd
              have hstrict : lexLt (pos.take depth) ((tocUpdate pos depth).take depth) :=
                tocUpdate_take_ge pos depth depth h9 hdb.1 (le_refl depth) hdb.2
              have hlt2 : lexLt (pos.take depth) pfx := lexLt_of_lt_of_le hstrict hle
              exact lexLt_ne hlt2 hlists
            · have : (pos.take depth).length ≠ pfx.length := by
                rw [htake_len, hlen]
                omega
              exact this (by rw [hlists])

instance secDepthOk.dec (sec : List String) : Decidable (secDepthOk sec) := by
  unfold secDepthOk
  infer_instance

/-- C7: for every run of the section loop an accepted parse can perform
(section depths within 1-9 for the blocks that produce groups), all
GroupNode, synthetic controls-group and ControlNode identifiers produced
are pairwise distinct: the ordinal numbers read before each counter update
are strictly increasing in lexicographic order at every fixed depth, the
decimal rendering of an ordinal is injective, the section number contains
no hyphen, so the second hyphen-separated field of every identifier
recovers its ordinal, and within one section the three identifier kinds
differ in their first field (`group` / `control` / `ctrl`). -/
theorem C7_identifiers_unique (secs : List (List String)) (pos : List ℕ)
    (h9 : pos.length = 9) (hok : ∀ sec ∈ secs, secDepthOk sec) :
    (collectIds pos secs).Nodup :=
  collectIds_nodup secs pos h9 hok

theorem C7_identifiers_unique_witness :
    (collectIds initTocPos
      [["# Scope", "body line"], ["## Applicability", "x"], ["# Scope"]]).Nodup :=
  C7_identifiers_unique _ initTocPos (by decide) (by decide)

/-- C3 amended: the ordinal number assigned to a group is the dot-joined
*full* length-`d` prefix of the outline counters as they stand *before*
the update — zero entries included, as witnessed by parsing the ordinal
string back into exactly `pos.take d` — the very first depth-1 header
receives ordinal "1", and the update after each processed header of depth
`k` increments counter `k-1` and zeroes all counters at indices ≥ k. -/
theorem C3_ordinal_full_prefix (pos : List ℕ) (d : ℕ)
    (h9 : pos.length = 9) (h1 : 1 ≤ d) (hd : d ≤ 9) :
    parseDotted (secNum pos d) = pos.take d ∧
    (tocUpdate pos d).length = 9 ∧
    (∀ i, i < 9 → (tocUpdate pos d).getD i 0 =
      if i < d - 1 then pos.getD i 0
      else if i = d - 1 then pos.getD (d - 1) 0 + 1 else 0) ∧
    secNum initTocPos 1 = "1" :=
  ⟨parseDotted_secNum pos d h9 h1, tocUpdate_length pos d h9 h1 hd,
   tocUpdate_getD pos d h9 h1 hd, by decide⟩

theorem C3_ordinal_full_prefix_witness :
    parseDotted (secNum initTocPos 2) = initTocPos.take 2 ∧
    (tocUpdate initTocPos 2).length = 9 ∧
    (∀ i, i < 9 → (tocUpdate initTocPos 2).getD i 0 =
      if i < 2 - 1 then initTocPos.getD i 0
      else if i = 2 - 1 then initTocPos.getD (2 - 1) 0 + 1 else 0) ∧
    secNum initTocPos 1 = "1" :=
  C3_ordinal_full_prefix initTocPos 2 (by decide) (by decide) (by decide)

/-- C9: when a header's depth `d ≥ 2` equals the current parent-stack
length, placement replaces the stack leaf at index `d-1` with the new
group and appends the new group to the child list of the group at stack
index `d-2`; the parent's already-attached children are preserved in
order as a prefix (so the previously attached sibling stays in the list),
every other arena node is untouched, and the top-level group list does
not change. -/
theorem C9_sibling_replacement (st : BuildSt) (depth g : ℕ)
    (hd : 2 ≤ depth) (hlen : depth = st.parentStack.length)
    (hp : st.parentStack.getD (depth - 2) 0 < st.arena.length) :
    ∃ st', placeSection st depth g = .ok st' ∧
      st'.parentStack = st.parentStack.set (depth - 1) g ∧
      st'.sectionGroups = st.sectionGroups ∧
      st'.arena.length = st.arena.length ∧
      ((st'.arena.getD (st.parentStack.getD (depth - 2) 0) default).groups =
        some ((st.arena.getD (st.parentStack.getD (depth - 2) 0) default).groups.getD []
          ++ [g])) ∧
      (∀ x ∈ ((st.arena.getD (st.parentStack.getD (depth - 2) 0) default).groups).getD [],
        x ∈ ((st'.arena.getD (st.parentStack.getD (depth - 2) 0) default).groups).getD []) ∧
      (∀ q, q < st.arena.length → q ≠ st.parentStack.getD (depth - 2) 0 →
        st'.arena.getD q default = st.arena.getD q default) := by
  set p := st.parentStack.getD (depth - 2) 0 with hpdef
  have hne1 : depth ≠ 1 := by omega
  have hnotlt : ¬ st.parentStack.length < depth := by omega
  have hlt2 : depth - 2 < st.parentStack.length := by omega
  have hstack : (st.parentStack.set (depth - 1) g).get? (depth - 2) = some p := by
    rw [List.get?_eq_getElem?, List.getElem?_set_ne (by omega),
      List.getElem?_eq_getElem hlt2]
    simp [hpdef, List.getD_eq_getElem?_getD, List.getElem?_eq_getElem hlt2]
  have harena : st.arena.get? p = some (st.arena.getD p default) := by
    rw [List.get?_eq_getElem?, List.getElem?_eq_getElem hp]
    simp [List.getD_eq_getElem?_getD, List.getElem?_eq_getElem hp]
  have hplace : placeSection st depth g =
      .ok ⟨addSubsectionToParent st.arena p g, st.parentStack.set (depth - 1) g,
           st.sectionGroups⟩ := by
    unfold placeSection
    rw [if_neg hne1, if_neg hnotlt, if_pos hlen]
    simp only [hstack]
  have hadd : addSubsectionToParent st.arena p g =
      st.arena.set p { st.arena.getD p default with
        groups := some ((st.arena.getD p default).groups.getD [] ++ [g]) } := by
    unfold addSubsectionToParent
    rw [harena]
  refine ⟨_, hplace, rfl, rfl, ?_, ?_, ?_, ?_⟩
  · simp [hadd]
  · simp only [hadd]
    simp [List.getD_eq_getElem?_getD, List.getElem?_set_self hp]
  · intro x hx
    simp only [List.getD_eq_getElem?_getD] at hx
    simp only [hadd]
    simp [List.getD_eq_getElem?_getD, List.getElem?_set_self hp]
    exact Or.inl hx
  · intro q hq hqp
    simp only [hadd]
    simp [List.getD_eq_getElem?_getD, List.getElem?_set_ne (fun h => hqp h.symm)]

def c9St : BuildSt :=
  ⟨[⟨"group-1-a", "1 a", some [1], none⟩, ⟨"group-1.0-b", "1.0 b", none, none⟩,
    ⟨"group-1.1-c", "1.1 c", none, none⟩], [0, 1], [0]⟩

theorem C9_sibling_replacement_witness :
    ∃ st', placeSection c9St 2 2 = .ok st' ∧
      st'.parentStack = c9St.parentStack.set (2 - 1) 2 ∧
      st'.sectionGroups = c9St.sectionGroups ∧
      st'.arena.length = c9St.arena.length ∧
      ((st'.arena.getD (c9St.parentStack.getD (2 - 2) 0) default).groups =
        some ((c9St.arena.getD (c9St.parentStack.getD (2 - 2) 0) default).groups.getD []
          ++ [2])) ∧
      (∀ x ∈ ((c9St.arena.getD (c9St.parentStack.getD (2 - 2) 0) default).groups).getD [],
        x ∈ ((st'.arena.getD (c9St.parentStack.getD (2 - 2) 0) default).groups).getD []) ∧
      (∀ q, q < c9St.arena.length → q ≠ c9St.parentStack.getD (2 - 2) 0 →
        st'.arena.getD q default = c9St.arena.getD q default) :=
  C9_sibling_replacement c9St 2 2 (by decide) (by decide) (by decide)

/-! C10 machinery: characterization of the backward `<table` walk -/

theorem pyGet_mem (l : List String) (i : ℤ) (s : String) (h : pyGet l i = some s) : s ∈ l := by
  unfold pyGet at h
  split_ifs at h with h1 h2
  · obtain rfl := Option.some.inj h
    have hi : i.toNat < l.length := by omega
    rw [List.getD_eq_getElem?_getD, List.getElem?_eq_getElem hi]
    exact List.getElem_mem hi
  · obtain rfl := Option.some.inj h
    have hi : (l.length + i).toNat < l.length := by omega
    rw [List.getD_eq_getElem?_getD, List.getElem?_eq_getElem hi]
    exact List.getElem_mem hi

theorem pyGet_pos (l : List String) (j : ℕ) (hj : j < l.length) :
    pyGet l (j : ℤ) = some (l.getD j "") := by
  unfold pyGet
  rw [if_pos ⟨by omega, by exact_mod_cast hj⟩]
  have : ((j : ℤ)).toNat = j := by omega
  rw [this]

theorem pyGet_neg (l : List String) (j : ℕ) (hj : j < l.length) :
    pyGet l ((j : ℤ) - l.length) = some (l.getD j "") := by
  unfold pyGet
  rw [if_neg (by omega), if_pos (by constructor <;> [omega; omega])]
  have : ((l.length : ℤ) + ((j : ℤ) - l.length)).toNat = j := by omega
  rw [this]

theorem pyGet_oob (l : List String) (i : ℤ)
    (hi : i < -(l.length : ℤ) ∨ (l.length : ℤ) ≤ i) : pyGet l i = none := by
  unfold pyGet
  rw [if_neg (by omega), if_neg (by omega)]

theorem tableOpenGo_all_fail (contents : List String)
    (hall : ∀ l ∈ contents, pyIn "<table" l = false) :
    ∀ fuel cur, tableOpenGo contents fuel cur = .error .indexError := by
  intro fuel
  induction fuel with
  | zero => intro cur; rfl
  | succ fuel ih =>
    intro cur
    rw [tableOpenGo]
    rcases hg : pyGet contents cur with _ | l
    · rfl
    · have hl : l ∈ contents := pyGet_mem contents cur l hg
      show (if pyIn "<table" l = true then Except.ok cur
        else tableOpenGo contents fuel (cur - 1)) = Except.error ParseErr.indexError
      rw [hall l hl, if_neg (by simp)]
      exact ih (cur - 1)

theorem tableOpenGo_error_val (contents : List String) :
    ∀ fuel cur err, tableOpenGo contents fuel cur = .error err → err = .indexError := by
  intro fuel
  induction fuel with
  | zero =>
    intro cur err h
    cases h
    rfl
  | succ fuel ih =>
    intro cur err h
    rw [tableOpenGo] at h
    rcases hg : pyGet contents cur with _ | l
    · rw [hg] at h
      cases h
      rfl
    · rw [hg] at h
      have h2 : (if pyIn "<table" l = true then Except.ok cur
          else tableOpenGo contents fuel (cur - 1)) = Except.error err := h
      by_cases hp : pyIn "<table" l = true
      · rw [if_pos hp] at h2
        cases h2
      · rw [if_neg hp] at h2
        exact ih (cur - 1) err h2

theorem tableOpenGo_finds_neg (contents : List String) :
    ∀ j fuel, j < contents.length → j + 2 ≤ fuel →
    (∃ i, i ≤ j ∧ pyIn "<table" (contents.getD i "") = true) →
    ∃ r, tableOpenGo contents fuel ((j : ℤ) - contents.length) = .ok r := by
  intro j
  induction j with
  | zero =>
    rintro fuel h0 hfuel ⟨i, hi, hp⟩
    have hi0 : i = 0 := by omega
    subst hi0
    obtain ⟨f, rfl⟩ : ∃ f, fuel = f + 1 := ⟨fuel - 1, by omega⟩
    rw [tableOpenGo]
    have hg : pyGet contents ((0 : ℕ) - (contents.length : ℤ)) =
        some (contents.getD 0 "") := pyGet_neg contents 0 h0
    rw [show ((0 : ℕ) : ℤ) - (contents.length : ℤ) = (0 : ℤ) - contents.length by omega] at hg ⊢
    rw [hg]
    show (∃ r, (if pyIn "<table" (contents.getD 0 "") = true
      then Except.ok ((0 : ℤ) - contents.length)
      else tableOpenGo contents f ((0 : ℤ) - contents.length - 1)) = .ok r)
    rw [if_pos hp]
    exact ⟨_, rfl⟩
  | succ j ih =>
    rintro fuel hlen hfuel ⟨i, hi, hp⟩
    obtain ⟨f, rfl⟩ : ∃ f, fuel = f + 1 := ⟨fuel - 1, by omega⟩
    rw [tableOpenGo, pyGet_neg contents (j + 1) hlen]
    show (∃ r, (if pyIn "<table" (contents.getD (j + 1) "") = true
      then Except.ok (((j + 1 : ℕ) : ℤ) - contents.length)
      else tableOpenGo contents f (((j + 1 : ℕ) : ℤ) - contents.length - 1)) = .ok r)
    by_cases hj1 : pyIn "<table" (contents.getD (j + 1) "") = true
    · rw [if_pos hj1]
      exact ⟨_, rfl⟩
    · rw [if_neg hj1]
      rw [Bool.not_eq_true] at hj1
      have harith : ((j + 1 : ℕ) : ℤ) - contents.length - 1 = (j : ℤ) - contents.length := by
        push_cast
        ring
      rw [harith]
      apply ih f (by omega) (by omega)
      have hij : i ≠ j + 1 := by
        intro hc
        rw [hc] at hp
        rw [hp] at hj1
        cases hj1
      exact ⟨i, by omega, hp⟩

theorem tableOpenGo_finds_pos (contents : List String) :
    ∀ (c : ℕ) fuel, c < contents.length → c + contents.length + 2 ≤ fuel →
    (∃ l ∈ contents, pyIn "<table" l = true) →
    ∃ r, tableOpenGo contents fuel (c : ℤ) = .ok r := by
  intro c
  induction c with
  | zero =>
    rintro fuel hc hfuel ⟨l, hl, hp⟩
    obtain ⟨f, rfl⟩ : ∃ f, fuel = f + 1 := ⟨fuel - 1, by omega⟩
    rw [tableOpenGo, pyGet_pos contents 0 hc]
    show (∃ r, (if pyIn "<table" (contents.getD 0 "") = true
      then Except.ok ((0 : ℕ) : ℤ)
      else tableOpenGo contents f (((0 : ℕ) : ℤ) - 1)) = .ok r)
    by_cases h0 : pyIn "<table" (contents.getD 0 "") = true
    · rw [if_pos h0]
      exact ⟨_, rfl⟩
    · rw [if_neg h0]
      have hlen1 : 1 ≤ contents.length := by omega
      have harith : ((0 : ℕ) : ℤ) - 1 = ((contents.length - 1 : ℕ) : ℤ) - contents.length := by
        push_cast
        omega
      rw [harith]
      apply tableOpenGo_finds_neg contents (contents.length - 1) f (by omega) (by omega)
      obtain ⟨n, hn, rfl⟩ := List.mem_iff_getElem.mp hl
      refine ⟨n, by omega, ?_⟩
      rw [List.getD_eq_getElem?_getD, List.getElem?_eq_getElem hn]
      exact hp
  | succ c ih =>
    rintro fuel hc hfuel ⟨l, hl, hp⟩
    obtain ⟨f, rfl⟩ : ∃ f, fuel = f + 1 := ⟨fuel - 1, by omega⟩
    rw [tableOpenGo, pyGet_pos contents (c + 1) hc]
    show (∃ r, (if pyIn "<table" (contents.getD (c + 1) "") = true
      then Except.ok ((c + 1 : ℕ) : ℤ)
      else tableOpenGo contents f (((c + 1 : ℕ) : ℤ) - 1)) = .ok r)
    by_cases h1 : pyIn "<table" (contents.getD (c + 1) "") = true
    · rw [if_pos h1]
      exact ⟨_, rfl⟩
    · rw [if_neg h1]
      have harith : ((c + 1 : ℕ) : ℤ) - 1 = (c : ℤ) := by
        push_cast
        ring
      rw [harith]
      exact ih f (by omega) (by omega) ⟨l, hl, hp⟩

theorem findTableOpen_ok_iff (contents : List String) (start : ℤ) (hs : 0 ≤ start) :
    (∃ r, findTableOpen contents start = .ok r) ↔
      (start < (contents.length : ℤ) ∧ ∃ l ∈ contents, pyIn "<table" l = true) := by
  constructor
  · rintro ⟨r, hr⟩
    by_cases hlt : start < (contents.length : ℤ)
    · refine ⟨hlt, ?_⟩
      by_contra hno
      push_neg at hno
      have hall : ∀ l ∈ contents, pyIn "<table" l = false := by
        intro l hl
        exact Bool.eq_false_iff.mpr (hno l hl)
      rw [findTableOpen, tableOpenGo_all_fail contents hall] at hr
      cases hr
    · exfalso
      push_neg at hlt
      unfold findTableOpen at hr
      obtain ⟨f, hf⟩ : ∃ f, (start + 1).toNat + contents.length + 2 = f + 1 :=
        ⟨(start + 1).toNat + contents.length + 1, by omega⟩
      rw [hf, tableOpenGo, pyGet_oob contents start (Or.inr hlt)] at hr
      cases hr
  · rintro ⟨hlt, hex⟩
    unfold findTableOpen
    have hcast : start = ((start.toNat : ℕ) : ℤ) := by omega
    rw [hcast]
    apply tableOpenGo_finds_pos contents start.toNat _ (by omega) (by omega) hex
  
/-- C10 amended: `parse_html_table` raises an uncaught IndexError if and
only if `table_end_line + 1` is past the last index of `contents` (as
happens when `parse_metadata` passes the line number of a closing tag on
the last line of the block), or *no line of the whole list* contains
`<table` — because Python's negative indexing wraps the backward walk
through the end of the list, an opening tag anywhere in the block is
found and yields a (possibly empty) table rather than an error. -/
theorem C10_index_error_iff (contents : List String) (e : ℤ) (he : -1 ≤ e) :
    parseHtmlTable contents e = .error .indexError ↔
      ((contents.length : ℤ) ≤ e + 1 ∨ ∀ l ∈ contents, pyIn "<table" l = false) := by
  have hiff := findTableOpen_ok_iff contents (e + 1) (by omega)
  unfold parseHtmlTable
  rcases hf : findTableOpen contents (e + 1) with err | r
  · have herr : err = .indexError := by
      unfold findTableOpen at hf
      exact tableOpenGo_error_val contents _ _ err hf
    subst herr
    constructor
    · intro _
      by_contra hc
      push_neg at hc
      obtain ⟨h1, h2⟩ := hc
      obtain ⟨l, hl, hp⟩ := h2
      have hptrue : pyIn "<table" l = true := by
        cases hb : pyIn "<table" l
        · exact absurd hb hp
        · rfl
      obtain ⟨r, hr⟩ := hiff.mpr ⟨by omega, ⟨l, hl, hptrue⟩⟩
      rw [hf] at hr
      cases hr
    · intro _
      rfl
  · constructor
    · intro hcontr
      have hcontr2 : Except.ok
          ((tpRun (tokenizeHtml (String.join (pySlice contents r (e + 2))).data)).parsedTable) =
          (Except.error ParseErr.indexError :
            Except ParseErr (List (List String))) := hcontr
      cases hcontr2
    · intro hrhs
      exfalso
      obtain ⟨h1, h2⟩ := hiff.mp ⟨r, hf⟩
      rcases hrhs with hrhs | hrhs
      · omega
      · obtain ⟨l, hl, hp⟩ := h2
        rw [hrhs l hl] at hp
        cases hp

theorem C10_index_error_iff_witness :
    (parseHtmlTable ["x", "y"] 5 = .error .indexError ↔
      ((["x", "y"] : List String).length : ℤ) ≤ 5 + 1 ∨
        ∀ l ∈ (["x", "y"] : List String), pyIn "<table" l = false) :=
  C10_index_error_iff ["x", "y"] 5 (by decide)

/-! C5 machinery -/

theorem mem_takeWhile_mem {p : Char → Bool} :
    ∀ {l : List Char} {x : Char}, x ∈ l.takeWhile p → x ∈ l := by
  intro l
  induction l with
  | nil => intro x hx; simp [List.takeWhile] at hx
  | cons a as ih =>
    intro x hx
    rw [List.takeWhile_cons] at hx
    by_cases hp : p a = true
    · rw [if_pos hp] at hx
      rcases List.mem_cons.mp hx with rfl | hx2
      · simp
      · exact List.mem_cons_of_mem _ (ih hx2)
    · rw [if_neg hp] at hx
      simp at hx

theorem filter_range_getLast (P : ℕ → Bool) (m n : ℕ) (hmn : m < n) (hP : P m = true)
    (hafter : ∀ k, m < k → k < n → P k = false) :
    ((List.range n).filter P).getLast? = some m := by
  have hsplit : n = (m + 1) + (n - (m + 1)) := by omega
  rw [hsplit, List.range_add, List.filter_append]
  have hnil : ((List.range (n - (m + 1))).map (m + 1 + ·)).filter P = [] := by
    rw [List.filter_eq_nil_iff]
    intro a ha
    obtain ⟨i, hi, rfl⟩ := List.mem_map.mp ha
    have hir := List.mem_range.mp hi
    simp [hafter (m + 1 + i) (by omega) (by omega)]
  rw [hnil, List.append_nil, List.range_succ, List.filter_append]
  have hsingle : [m].filter P = [m] := by
    simp [List.filter, hP]
  rw [hsingle, List.getLast?_append]
  rfl

theorem lastGtIdx_none (cs : List Char) (h : '>' ∉ cs) : lastGtIdx cs = none := by
  show ((List.range ((cs.takeWhile (· ≠ '\n')).length)).filter
      (fun i => (cs.takeWhile (· ≠ '\n')).getD i ' ' = '>')).getLast? = none
  have hnil : (List.range ((cs.takeWhile (· ≠ '\n')).length)).filter
      (fun i => (cs.takeWhile (· ≠ '\n')).getD i ' ' = '>') = [] := by
    rw [List.filter_eq_nil_iff]
    intro i hi
    have hlt := List.mem_range.mp hi
    have hmem : (cs.takeWhile (· ≠ '\n')).getD i ' ' ∈ cs.takeWhile (· ≠ '\n') := by
      rw [List.getD_eq_getElem?_getD, List.getElem?_eq_getElem hlt]
      exact List.getElem_mem hlt
    have hmem2 := mem_takeWhile_mem hmem
    simp only [decide_eq_true_eq]
    intro hc
    rw [hc] at hmem2
    exact h hmem2
  rw [hnil]
  rfl

theorem lastGtIdx_split (ys zs : List Char) (hys : '\n' ∉ ys) (hzs : '>' ∉ zs) :
    lastGtIdx (ys ++ '>' :: zs) = some ys.length := by
  have hregion : (ys ++ '>' :: zs).takeWhile (· ≠ '\n') =
      ys ++ '>' :: zs.takeWhile (· ≠ '\n') := by
    rw [List.takeWhile_append_of_pos (by
      intro a ha
      simp only [decide_eq_true_eq]
      intro hc
      rw [hc] at ha
      exact hys ha)]
    rw [List.takeWhile_cons_of_pos (by simp)]
  show ((List.range (((ys ++ '>' :: zs).takeWhile (· ≠ '\n')).length)).filter
      (fun i => ((ys ++ '>' :: zs).takeWhile (· ≠ '\n')).getD i ' ' = '>')).getLast? =
    some ys.length
  rw [hregion]
  apply filter_range_getLast
  · simp only [List.length_append, List.length_cons]
    omega
  · simp only [decide_eq_true_eq]
    rw [List.getD_eq_getElem?_getD, List.getElem?_append_right (by omega)]
    have hz : ys.length - ys.length = 0 := by omega
    rw [hz, List.getElem?_cons_zero]
    rfl
  · intro k hk1 hk2
    simp only [List.length_append, List.length_cons] at hk2
    simp only [decide_eq_false_iff_not]
    rw [List.getD_eq_getElem?_getD, List.getElem?_append_right (by omega)]
    have hidx : k - ys.length = (k - ys.length - 1) + 1 := by omega
    rw [hidx, List.getElem?_cons_succ]
    have hlt : k - ys.length - 1 < (zs.takeWhile (· ≠ '\n')).length := by omega
    rw [List.getElem?_eq_getElem hlt]
    simp only [Option.getD_some]
    intro hc
    have hmem : (zs.takeWhile (· ≠ '\n'))[k - ys.length - 1] ∈ zs.takeWhile (· ≠ '\n') :=
      List.getElem_mem hlt
    rw [hc] at hmem
    exact hzs (mem_takeWhile_mem hmem)

theorem angleGo_skip : ∀ (ws rest : List Char), angleGo ws.length (ws ++ rest) = angleGo 0 rest := by
  intro ws
  induction ws with
  | nil => intro rest; rfl
  | cons w ws ih =>
    intro rest
    show angleGo (ws.length + 1) (w :: (ws ++ rest)) = angleGo 0 rest
    rw [angleGo]
    exact ih rest

theorem angleGo_no_gt : ∀ (bs : List Char), '>' ∉ bs → angleGo 0 bs = bs := by
  intro bs
  induction bs with
  | nil => intro _; rfl
  | cons c cs ih =>
    intro h
    have hcs : '>' ∉ cs := fun hm => h (List.mem_cons_of_mem _ hm)
    rw [angleGo]
    by_cases hc : c = '<'
    · rw [if_pos hc, lastGtIdx_none cs hcs]
      show c :: angleGo 0 cs = c :: cs
      rw [ih hcs]
    · rw [if_neg hc, ih hcs]

theorem angleGo_copy : ∀ (as bs : List Char), '<' ∉ as →
    angleGo 0 (as ++ bs) = as ++ angleGo 0 bs := by
  intro as
  induction as with
  | nil => intro bs _; rfl
  | cons c cs ih =>
    intro bs h
    have hc : ¬ c = '<' := fun hcc => h (by simp [hcc])
    show angleGo 0 (c :: (cs ++ bs)) = c :: (cs ++ angleGo 0 bs)
    rw [angleGo, if_neg hc, ih bs (fun hm => h (List.mem_cons_of_mem _ hm))]

/-- C5 amended: `strip_markup` is greedy per line rather than nongreedy.
On a line that decomposes as `xs ++ '<' :: ys ++ '>' :: zs` with no `<` in
`xs` (so the `<` shown is the first one), no newline in `ys`, and no `>`
in `zs` (so the `>` shown is the last one), everything from the first `<`
through the last `>` is deleted — text between two separate `<...>` spans
is deleted too, e.g. `"a<x>b<y>c"` becomes `"ac"`, not `"abc"`; and a
line with no `<` preceding a `>` (decomposed as `as ++ bs` with `<` not
in `as`, `>` not in `bs`) is left unchanged. -/
theorem C5_strip_markup_greedy_span (xs ys zs : List Char)
    (h1 : '<' ∉ xs) (h2 : '\n' ∉ ys) (h3 : '>' ∉ zs) :
    (stripHtmlFromText ⟨xs ++ '<' :: (ys ++ '>' :: zs)⟩).data = xs ++ zs ∧
    (∀ as bs : List Char, '<' ∉ as → '>' ∉ bs →
      (stripHtmlFromText ⟨as ++ bs⟩).data = as ++ bs) := by
  constructor
  · show angleGo 0 (xs ++ '<' :: (ys ++ '>' :: zs)) = xs ++ zs
    rw [angleGo_copy xs _ h1]
    congr 1
    rw [angleGo, if_pos rfl, lastGtIdx_split ys zs h2 h3]
    show angleGo (ys.length + 1) (ys ++ '>' :: zs) = zs
    have hsplit : ys ++ '>' :: zs = (ys ++ ['>']) ++ zs := by simp
    have hlen : ys.length + 1 = (ys ++ ['>']).length := by simp
    rw [hsplit, hlen, angleGo_skip]
    exact angleGo_no_gt zs h3
  · intro as bs ha hb
    show angleGo 0 (as ++ bs) = as ++ bs
    rw [angleGo_copy as bs ha, angleGo_no_gt bs hb]

theorem C5_strip_markup_greedy_span_witness :
    ((stripHtmlFromText ⟨['a'] ++ '<' :: (['x', '>', 'b', '<', 'y'] ++ '>' :: ['c'])⟩).data =
      ['a'] ++ ['c']) ∧
    (∀ as bs : List Char, '<' ∉ as → '>' ∉ bs →
      (stripHtmlFromText ⟨as ++ bs⟩).data = as ++ bs) :=
  C5_strip_markup_greedy_span ['a'] ['x', '>', 'b', '<', 'y'] ['c']
    (by decide) (by decide) (by decide)

/-! C6 machinery -/

def fragTagOk : CellFrag → Prop
  | .plain _ => True
  | .styled t _ => t ≠ "tr" ∧ t ≠ "td"

instance fragTagOk.dec : ∀ f : CellFrag, Decidable (fragTagOk f)
  | .plain _ => isTrue trivial
  | .styled t _ => inferInstanceAs (Decidable (t ≠ "tr" ∧ t ≠ "td"))

theorem tpRun_frags (frags : List CellFrag) (hok : ∀ f ∈ frags, fragTagOk f) :
    ∀ (T : List (List String)) (R : List String) (c : String),
    (frags.flatMap fragEvents).foldl tpStep ⟨T, R, c, true, true⟩ =
      ⟨T, R, c ++ cellRendered frags, true, true⟩ := by
  induction frags with
  | nil =>
    intro T R c
    simp [cellRendered]
  | cons f rest ih =>
    intro T R c
    have hokr : ∀ g ∈ rest, fragTagOk g := fun g hg => hok g (List.mem_cons_of_mem _ hg)
    rw [List.flatMap_cons, List.foldl_append]
    rcases f with s | ⟨t, s⟩
    · show (rest.flatMap fragEvents).foldl tpStep (tpChars ⟨T, R, c, true, true⟩ s) = _
      rw [show tpChars ⟨T, R, c, true, true⟩ s = ⟨T, R, c ++ s, true, true⟩ from rfl]
      rw [ih hokr]
      show TPState.mk T R ((c ++ s) ++ cellRendered rest) true true = _
      rw [String.append_assoc]
      rfl
    · obtain ⟨ht1, ht2⟩ := hok (.styled t s) (by simp)
      show (rest.flatMap fragEvents).foldl tpStep
        (tpEndTag (tpChars (tpStartTag ⟨T, R, c, true, true⟩ t) s) t) = _
      have hstart : tpStartTag ⟨T, R, c, true, true⟩ t = ⟨T, R, c, true, true⟩ := by
        unfold tpStartTag
        rw [if_neg ht1, if_neg ht2]
      rw [hstart]
      rw [show tpChars ⟨T, R, c, true, true⟩ s = ⟨T, R, c ++ s, true, true⟩ from rfl]
      have hend : tpEndTag ⟨T, R, c ++ s, true, true⟩ t =
          ⟨T, R, (c ++ s) ++ " ", true, true⟩ := by
        unfold tpEndTag
        rw [if_neg ht1, if_neg ht2, if_pos (by simp)]
      rw [hend, ih hokr]
      show TPState.mk T R (((c ++ s) ++ " ") ++ cellRendered rest) true true = _
      simp [cellRendered, fragOut, String.append_assoc]

theorem tpRun_cells (cells : List (List CellFrag))
    (hok : ∀ cell ∈ cells, ∀ f ∈ cell, fragTagOk f) :
    ∀ (T : List (List String)) (R : List String) (c : String),
    ∃ c', (cells.flatMap cellEvents).foldl tpStep ⟨T, R, c, true, false⟩ =
      ⟨T, R ++ cells.map cellRendered, c', true, false⟩ := by
  induction cells with
  | nil =>
    intro T R c
    exact ⟨c, by simp⟩
  | cons cell rest ih =>
    intro T R c
    have hokr : ∀ x ∈ rest, ∀ f ∈ x, fragTagOk f :=
      fun x hx => hok x (List.mem_cons_of_mem _ hx)
    rw [List.flatMap_cons, List.foldl_append]
    show ∃ c', (rest.flatMap cellEvents).foldl tpStep
      ((HtmlEvent.startTag "td" :: (cell.flatMap fragEvents ++ [HtmlEvent.endTag "td"])).foldl
        tpStep ⟨T, R, c, true, false⟩) = _
    rw [List.foldl_cons]
    have hstart : tpStep ⟨T, R, c, true, false⟩ (HtmlEvent.startTag "td") =
        ⟨T, R, "", true, true⟩ := by
      show tpStartTag ⟨T, R, c, true, false⟩ "td" = _
      unfold tpStartTag
      rw [if_neg (show ¬ ("td" : String) = "tr" by decide), if_pos rfl]
    rw [hstart, List.foldl_append,
      tpRun_frags cell (hok cell (by simp)) T R ""]
    have hend : tpStep ⟨T, R, "" ++ cellRendered cell, true, true⟩ (HtmlEvent.endTag "td") =
        ⟨T, R ++ ["" ++ cellRendered cell], "" ++ cellRendered cell, true, false⟩ := by
      show tpEndTag _ "td" = _
      unfold tpEndTag
      rw [if_neg (show ¬ ("td" : String) = "tr" by decide), if_pos rfl]
    show ∃ c', (rest.flatMap cellEvents).foldl tpStep
      (tpStep ⟨T, R, "" ++ cellRendered cell, true, true⟩ (HtmlEvent.endTag "td")) = _
    rw [hend]
    obtain ⟨c', hc'⟩ := ih hokr T (R ++ ["" ++ cellRendered cell]) ("" ++ cellRendered cell)
    refine ⟨c', ?_⟩
    rw [hc']
    rw [String.empty_append, List.append_assoc]
    rfl

theorem tpRun_rows (rows : List (List (List CellFrag)))
    (hok : ∀ r ∈ rows, ∀ cell ∈ r, ∀ f ∈ cell, fragTagOk f) :
    ∀ (T : List (List String)) (R : List String) (c : String),
    ∃ R' c', (rows.flatMap rowEvents).foldl tpStep ⟨T, R, c, false, false⟩ =
      ⟨T ++ rows.map (fun r => r.map cellRendered), R', c', false, false⟩ := by
  induction rows with
  | nil =>
    intro T R c
    exact ⟨R, c, by simp⟩
  | cons row rest ih =>
    intro T R c
    have hokr : ∀ x ∈ rest, ∀ cell ∈ x, ∀ f ∈ cell, fragTagOk f :=
      fun x hx => hok x (List.mem_cons_of_mem _ hx)
    rw [List.flatMap_cons, List.foldl_append]
    show ∃ R' c', (rest.flatMap rowEvents).foldl tpStep
      ((HtmlEvent.startTag "tr" :: (row.flatMap cellEvents ++ [HtmlEvent.endTag "tr"])).foldl
        tpStep ⟨T, R, c, false, false⟩) = _
    rw [List.foldl_cons]
    have hstart : tpStep ⟨T, R, c, false, false⟩ (HtmlEvent.startTag "tr") =
        ⟨T, [], c, true, false⟩ := by
      show tpStartTag ⟨T, R, c, false, false⟩ "tr" = _
      unfold tpStartTag
      rw [if_pos (show ("tr" : String) = "tr" from rfl),
        if_neg (show ¬ ("tr" : String) = "td" by decide)]
    rw [hstart, List.foldl_append]
    obtain ⟨c', hc'⟩ := tpRun_cells row (hok row (by simp)) T [] c
    rw [hc']
    have hend : tpStep ⟨T, [] ++ row.map cellRendered, c', true, false⟩
        (HtmlEvent.endTag "tr") =
        ⟨T ++ [[] ++ row.map cellRendered], [] ++ row.map cellRendered, c', false, false⟩ := by
      show tpEndTag _ "tr" = _
      unfold tpEndTag
      rw [if_pos (show ("tr" : String) = "tr" from rfl),
        if_neg (show ¬ ("tr" : String) = "td" by decide)]
      rw [if_neg (by simp)]
    show ∃ R' c'', (rest.flatMap rowEvents).foldl tpStep
      (tpStep ⟨T, [] ++ row.map cellRendered, c', true, false⟩ (HtmlEvent.endTag "tr")) = _
    rw [hend]
    obtain ⟨R', c'', hrest⟩ := ih hokr (T ++ [[] ++ row.map cellRendered])
      ([] ++ row.map cellRendered) c'
    refine ⟨R', c'', ?_⟩
    rw [hrest, List.nil_append, List.append_assoc]
    rfl

/-- C6 amended: a well-formed N×M table (row tags, per-row M cell tags,
cell content made of plain and inline-styled fragments whose tags are not
`tr`/`td`) yields exactly N rows of M cells in document order, where each
cell string is the concatenation of its character data with one space
appended at the *end* of every styled fragment (at its closing tag): a
cell ending in a styled fragment therefore carries a trailing space
rather than the claimed no-extra-space text. -/
theorem C6_table_shape_and_cells (rows : List (List (List CellFrag))) (M : ℕ)
    (hM : ∀ r ∈ rows, r.length = M)
    (hok : ∀ r ∈ rows, ∀ cell ∈ r, ∀ f ∈ cell, fragTagOk f) :
    (tpRun (tableEvents rows)).parsedTable = rows.map (fun r => r.map cellRendered) ∧
    (tpRun (tableEvents rows)).parsedTable.length = rows.length ∧
    (∀ r ∈ (tpRun (tableEvents rows)).parsedTable, r.length = M) := by
  have hmain : (tpRun (tableEvents rows)).parsedTable =
      rows.map (fun r => r.map cellRendered) := by
    unfold tpRun tableEvents
    rw [List.foldl_cons]
    have hstart : tpStep tpInit (HtmlEvent.startTag "table") = tpInit := by
      show tpStartTag tpInit "table" = tpInit
      unfold tpStartTag
      rw [if_neg (show ¬ ("table" : String) = "tr" by decide),
        if_neg (show ¬ ("table" : String) = "td" by decide)]
    rw [hstart, List.foldl_append]
    obtain ⟨R', c', hrows⟩ := tpRun_rows rows hok [] [] ""
    show (List.foldl tpStep ((rows.flatMap rowEvents).foldl tpStep
      ⟨[], [], "", false, false⟩) [HtmlEvent.endTag "table"]).parsedTable = _
    rw [hrows]
    have hend : tpStep ⟨[] ++ rows.map (fun r => r.map cellRendered), R', c', false, false⟩
        (HtmlEvent.endTag "table") =
        ⟨[] ++ rows.map (fun r => r.map cellRendered), R', c', false, false⟩ := by
      show tpEndTag ⟨[] ++ rows.map (fun r => r.map cellRendered), R', c', false, false⟩
        "table" = _
      unfold tpEndTag
      rw [if_neg (show ¬ ("table" : String) = "tr" by decide),
        if_neg (show ¬ ("table" : String) = "td" by decide)]
      rw [if_neg (by simp)]
    show (tpStep ⟨[] ++ rows.map (fun r => r.map cellRendered), R', c', false, false⟩
      (HtmlEvent.endTag "table")).parsedTable = _
    rw [hend]
    simp
  refine ⟨hmain, ?_, ?_⟩
  · rw [hmain]
    simp
  · intro r hr
    rw [hmain] at hr
    obtain ⟨r0, hr0, rfl⟩ := List.mem_map.mp hr
    rw [List.length_map]
    exact hM r0 hr0

theorem C6_table_shape_and_cells_witness :
    (tpRun (tableEvents [[[CellFrag.styled "b" "x"], [CellFrag.plain "y"]],
      [[CellFrag.plain "a", CellFrag.styled "i" "b"], [CellFrag.plain "c"]]])).parsedTable =
      [[[CellFrag.styled "b" "x"], [CellFrag.plain "y"]],
       [[CellFrag.plain "a", CellFrag.styled "i" "b"], [CellFrag.plain "c"]]].map
        (fun r => r.map cellRendered) ∧
    (tpRun (tableEvents [[[CellFrag.styled "b" "x"], [CellFrag.plain "y"]],
      [[CellFrag.plain "a", CellFrag.styled "i" "b"], [CellFrag.plain "c"]]])).parsedTable.length =
      ([[[CellFrag.styled "b" "x"], [CellFrag.plain "y"]],
        [[CellFrag.plain "a", CellFrag.styled "i" "b"], [CellFrag.plain "c"]]] :
        List (List (List CellFrag))).length ∧
    (∀ r ∈ (tpRun (tableEvents [[[CellFrag.styled "b" "x"], [CellFrag.plain "y"]],
      [[CellFrag.plain "a", CellFrag.styled "i" "b"], [CellFrag.plain "c"]]])).parsedTable,
      r.length = 2) :=
  C6_table_shape_and_cells _ 2 (by decide) (by decide)
/-! C8 machinery -/

/-- The `parse_metadata` line step without the revision-table side effect:
used to express what version/date the walk extracts. -/
def mStepP (line : String) (st : MScan) : MScan :=
  if line = "" then st
  else if pyIn "<table" line then { st with inTable := true }
  else if pyIn "</table" line then { st with inTable := false }
  else if st.inTable then st
  else if pyIn "Table of Contents" line then { st with inToc := true }
  else if line.data.headD ' ' = '[' ∧ st.inToc then
    { st with tocLines := st.tocLines ++ [line] }
  else if pyIn "Version " line then
    { st with version := pyReplace line "Version " "" }
  else if (line.data.headD ' ' ∈ ['*', '<', '[', '(']) ∧ ¬ st.inToc then st
  else
    match parseUSDate line with
    | some d => { st with published := some d }
    | none => st

def mScanPGo : List String → MScan → MScan
  | [], st => st
  | line :: rest, st => mScanPGo rest (mStepP line st)

/-- The version string the front-matter walk extracts. -/
def metaVersion (intro : List String) : String := (mScanPGo intro mScanInit).version

/-- The publication date the front-matter walk extracts. -/
def metaPublished (intro : List String) : Option Date :=
  (mScanPGo intro mScanInit).published

/-- A line on which `parse_metadata` calls `parse_html_table` (the checks
preceding the `</table` branch are state-independent). -/
def lineTriggersTable (line : String) : Prop :=
  ¬ line = "" ∧ pyIn "<table" line = false ∧ pyIn "</table" line = true

instance lineTriggersTable.dec (line : String) : Decidable (lineTriggersTable line) := by
  unfold lineTriggersTable
  infer_instance

/-- Some revision-table extraction inside the front matter aborts. -/
def metaTableErr (intro : List String) : Prop :=
  ∃ i, i < intro.length ∧ lineTriggersTable (intro.getD i "") ∧
    (metaTableStep intro i).isOk = false

/-- States that agree on everything the final metadata depends on. -/
def sameP (a b : MScan) : Prop :=
  a.version = b.version ∧ a.published = b.published ∧ a.inTable = b.inTable ∧
  a.inToc = b.inToc ∧ a.tocLines = b.tocLines

theorem mStep_not_trigger (intro : List String) (i : ℕ) (line : String) (st stP : MScan)
    (hsame : sameP st stP) (hnt : ¬ lineTriggersTable line) :
    ∃ st', mStep intro i line st = .ok st' ∧ sameP st' (mStepP line stP) := by
  obtain ⟨hv, hp, hit, hitoc, htl⟩ := hsame
  unfold mStep mStepP lineTriggersTable at *
  push_neg at hnt
  by_cases h1 : line = ""
  · rw [if_pos h1, if_pos h1]
    exact ⟨st, rfl, hv, hp, hit, hitoc, htl⟩
  · rw [if_neg h1, if_neg h1]
    by_cases h2 : pyIn "<table" line = true
    · rw [if_pos h2, if_pos h2]
      exact ⟨_, rfl, hv, hp, rfl, hitoc, htl⟩
    · rw [if_neg h2, if_neg h2]
      have h3 : ¬ pyIn "</table" line = true := by
        intro hc
        exact absurd hc (hnt h1 (Bool.eq_false_iff.mpr h2))
      rw [if_neg h3, if_neg h3]
      by_cases h4 : st.inTable = true
      · rw [if_pos h4, if_pos (show stP.inTable = true from hit ▸ h4)]
        exact ⟨st, rfl, hv, hp, hit, hitoc, htl⟩
      · rw [if_neg h4, if_neg (show ¬ stP.inTable = true from fun hc => h4 (hit.symm ▸ hc))]
        by_cases h5 : pyIn "Table of Contents" line = true
        · rw [if_pos h5, if_pos h5]
          exact ⟨_, rfl, hv, hp, hit, rfl, htl⟩
        · rw [if_neg h5, if_neg h5]
          by_cases h6 : line.data.headD ' ' = '[' ∧ st.inToc = true
          · rw [if_pos h6,
              if_pos (show line.data.headD ' ' = '[' ∧ stP.inToc = true from
                ⟨h6.1, hitoc ▸ h6.2⟩)]
            refine ⟨_, rfl, hv, hp, hit, hitoc, ?_⟩
            simp [htl]
          · rw [if_neg h6,
              if_neg (show ¬ (line.data.headD ' ' = '[' ∧ stP.inToc = true) from
                fun hc => h6 ⟨hc.1, hitoc.symm ▸ hc.2⟩)]
            by_cases h7 : pyIn "Version " line = true
            · rw [if_pos h7, if_pos h7]
              exact ⟨_, rfl, rfl, hp, hit, hitoc, htl⟩
            · rw [if_neg h7, if_neg h7]
              by_cases h8 : (line.data.headD ' ' ∈ ['*', '<', '[', '(']) ∧ ¬ st.inToc = true
              · rw [if_pos h8,
                  if_pos (show (line.data.headD ' ' ∈ ['*', '<', '[', '(']) ∧
                    ¬ stP.inToc = true from ⟨h8.1, fun hc => h8.2 (hitoc.symm ▸ hc)⟩)]
                exact ⟨st, rfl, hv, hp, hit, hitoc, htl⟩
              · rw [if_neg h8,
                  if_neg (show ¬ ((line.data.headD ' ' ∈ ['*', '<', '[', '(']) ∧
                    ¬ stP.inToc = true) from
                    fun hc => h8 ⟨hc.1, fun hcc => hc.2 (hitoc ▸ hcc)⟩)]
                rcases hd : parseUSDate line with _ | d
                · exact ⟨st, rfl, hv, hp, hit, hitoc, htl⟩
                · exact ⟨_, rfl, hv, rfl, hit, hitoc, htl⟩

theorem mStep_trigger_ok (intro : List String) (i : ℕ) (line : String) (st stP : MScan)
    (hsame : sameP st stP) (ht : lineTriggersTable line)
    (hok : (metaTableStep intro i).isOk = true) :
    ∃ st', mStep intro i line st = .ok st' ∧ sameP st' (mStepP line stP) := by
  obtain ⟨hv, hp, hit, hitoc, htl⟩ := hsame
  obtain ⟨h1, h2, h3⟩ := ht
  unfold mStep mStepP
  rw [if_neg h1, if_neg h1,
    if_neg (show ¬ pyIn "<table" line = true by simp [h2]),
    if_neg (show ¬ pyIn "<table" line = true by simp [h2]),
    if_pos h3, if_pos h3]
  rcases hmt : metaTableStep intro i with e | revs
  · rw [hmt] at hok
    exact Bool.noConfusion hok
  · exact ⟨_, rfl, hv, hp, rfl, hitoc, htl⟩

theorem mStep_trigger_err (intro : List String) (i : ℕ) (line : String) (st : MScan)
    (ht : lineTriggersTable line) (herr : (metaTableStep intro i).isOk = false) :
    ∃ e, mStep intro i line st = .error e := by
  obtain ⟨h1, h2, h3⟩ := ht
  unfold mStep
  rw [if_neg h1, if_neg (show ¬ pyIn "<table" line = true by simp [h2]), if_pos h3]
  rcases hmt : metaTableStep intro i with e | revs
  · exact ⟨e, rfl⟩
  · rw [hmt] at herr
    exact Bool.noConfusion herr

theorem mScanGo_ok (intro : List String) :
    ∀ (lines : List String) (i : ℕ) (st stP : MScan), sameP st stP →
    (∀ k, k < lines.length → lineTriggersTable (lines.getD k "") →
      (metaTableStep intro (i + k)).isOk = true) →
    ∃ st', mScanGo intro i lines st = .ok st' ∧ sameP st' (mScanPGo lines stP) := by
  intro lines
  induction lines with
  | nil =>
    intro i st stP hsame _
    exact ⟨st, rfl, hsame⟩
  | cons line rest ih =>
    intro i st stP hsame hok
    by_cases ht : lineTriggersTable line
    · obtain ⟨st1, hst1, hsame1⟩ := mStep_trigger_ok intro i line st stP hsame ht
        (by
          have := hok 0 (by simp) (by simpa using ht)
          simpa using this)
      show ∃ st', mScanGo intro i (line :: rest) st = .ok st' ∧
        sameP st' (mScanPGo rest (mStepP line stP))
      rw [mScanGo, hst1]
      exact ih (i + 1) st1 (mStepP line stP) hsame1 (fun k hk hkt => by
        have := hok (k + 1) (by simpa using hk) (by simpa using hkt)
        have harith : i + (k + 1) = i + 1 + k := by omega
        rwa [harith] at this)
    · obtain ⟨st1, hst1, hsame1⟩ := mStep_not_trigger intro i line st stP hsame ht
      show ∃ st', mScanGo intro i (line :: rest) st = .ok st' ∧
        sameP st' (mScanPGo rest (mStepP line stP))
      rw [mScanGo, hst1]
      exact ih (i + 1) st1 (mStepP line stP) hsame1 (fun k hk hkt => by
        have := hok (k + 1) (by simpa using hk) (by simpa using hkt)
        have harith : i + (k + 1) = i + 1 + k := by omega
        rwa [harith] at this)

theorem mScanGo_err (intro : List String) :
    ∀ (lines : List String) (i : ℕ) (st : MScan),
    (∃ k, k < lines.length ∧ lineTriggersTable (lines.getD k "") ∧
      (metaTableStep intro (i + k)).isOk = false) →
    ∃ e, mScanGo intro i lines st = .error e := by
  intro lines
  induction lines with
  | nil =>
    rintro i st ⟨k, hk, _⟩
    simp at hk
  | cons line rest ih =>
    rintro i st ⟨k, hk, hkt, hkerr⟩
    rcases k with _ | k
    · have hkerr0 : (metaTableStep intro i).isOk = false := hkerr
      obtain ⟨e, he⟩ := mStep_trigger_err intro i line st (by simpa using hkt) hkerr0
      refine ⟨e, ?_⟩
      rw [mScanGo, he]
    · by_cases ht : lineTriggersTable line
      · by_cases htok : (metaTableStep intro i).isOk = true
        · obtain ⟨st1, hst1, _⟩ := mStep_trigger_ok intro i line st st
            ⟨rfl, rfl, rfl, rfl, rfl⟩ ht htok
          obtain ⟨e, he⟩ := ih (i + 1) st1 ⟨k, by simpa using hk, by simpa using hkt, by
            have harith : i + 1 + k = i + (k + 1) := by omega
            rwa [harith]⟩
          refine ⟨e, ?_⟩
          rw [mScanGo, hst1]
          exact he
        · obtain ⟨e, he⟩ := mStep_trigger_err intro i line st ht (Bool.eq_false_iff.mpr htok)
          refine ⟨e, ?_⟩
          rw [mScanGo, he]
      · obtain ⟨st1, hst1, _⟩ := mStep_not_trigger intro i line st st
          ⟨rfl, rfl, rfl, rfl, rfl⟩ ht
        obtain ⟨e, he⟩ := ih (i + 1) st1 ⟨k, by simpa using hk, by simpa using hkt, by
          have harith : i + 1 + k = i + (k + 1) := by omega
          rwa [harith]⟩
        refine ⟨e, ?_⟩
        rw [mScanGo, hst1]
        exact he

/-- C8 amended: `parse_metadata` raises if and only if the extracted
version string is empty (either no line containing `Version ` was seen,
or the last such line contains nothing but occurrences of `Version `),
or no eligible line parsed as a long-form date, or a `</table`-triggered
revision-table extraction raised an IndexError; when none of these hold
it returns a `Metadata` record carrying exactly the extracted version
and date. -/
theorem C8_metadata_error_iff (intro : List String) :
    ((parseMetadata intro).isOk = true ↔
      (¬ metaTableErr intro ∧ metaVersion intro ≠ "" ∧
        (metaPublished intro).isSome = true)) ∧
    (∀ m, parseMetadata intro = .ok m →
      m.version = metaVersion intro ∧ some m.published = metaPublished intro) := by
  by_cases hmt : metaTableErr intro
  · obtain ⟨k, hk, hkt, hkerr⟩ := hmt
    obtain ⟨e, he⟩ := mScanGo_err intro intro 0 mScanInit ⟨k, hk, hkt, by rwa [Nat.zero_add]⟩
    have hpm : parseMetadata intro = .error e := by
      unfold parseMetadata
      rw [he]
    constructor
    · rw [hpm]
      constructor
      · intro h
        exact Bool.noConfusion h
      · rintro ⟨hno, -, -⟩
        exact absurd ⟨k, hk, hkt, hkerr⟩ hno
    · intro m hm
      rw [hpm] at hm
      exact Except.noConfusion hm
  · have hok : ∀ k, k < intro.length → lineTriggersTable (intro.getD k "") →
        (metaTableStep intro (0 + k)).isOk = true := by
      intro k hk hkt
      rw [Nat.zero_add]
      by_contra hc
      exact hmt ⟨k, hk, hkt, Bool.eq_false_iff.mpr hc⟩
    obtain ⟨st', hgo, hsame⟩ :=
      mScanGo_ok intro intro 0 mScanInit mScanInit ⟨rfl, rfl, rfl, rfl, rfl⟩ hok
    have hv : st'.version = metaVersion intro := hsame.1
    have hp : st'.published = metaPublished intro := hsame.2.1
    have hpm : parseMetadata intro = (if st'.version = "" ∨ st'.published = none
        then Except.error ParseErr.incompleteMetadata
        else Except.ok ⟨cpTitle, st'.published.getD ⟨0, 0, 0⟩, st'.version,
          "1.1.2", st'.revisions⟩) := by
      unfold parseMetadata
      rw [hgo]
    constructor
    · constructor
      · intro hok'
        by_cases hcond : st'.version = "" ∨ st'.published = none
        · rw [hpm, if_pos hcond] at hok'
          exact Bool.noConfusion hok'
        · push_neg at hcond
          refine ⟨hmt, ?_, ?_⟩
          · rw [← hv]
            exact hcond.1
          · rw [← hp]
            rcases hpub : st'.published with _ | d
            · exact absurd hpub hcond.2
            · rfl
      · rintro ⟨-, hv', hp'⟩
        have hcond : ¬ (st'.version = "" ∨ st'.published = none) := by
          rintro (h | h)
          · exact hv' (hv ▸ h)
          · rw [hp] at h
            rw [h] at hp'
            exact Bool.noConfusion hp'
        rw [hpm, if_neg hcond]
        rfl
    · intro m hm
      by_cases hcond : st'.version = "" ∨ st'.published = none
      · rw [hpm, if_pos hcond] at hm
        exact Except.noConfusion hm
      · rw [hpm, if_neg hcond] at hm
        push_neg at hcond
        injection hm with hm2
        subst hm2
        refine ⟨hv, ?_⟩
        rcases hpub : st'.published with _ | d
        · exact absurd hpub hcond.2
        · show (some d : Option Date) = metaPublished intro
          exact hpub.symm.trans hp

theorem C8_metadata_error_iff_witness :
    ({ title := cpTitle, published := ⟨2020, 1, 1⟩, version := "1.0",
        oscalVersion := "1.1.2", revisions := none } : Metadata).version =
      metaVersion ["Version 1.0", "January 1, 2020"] ∧
    some ({ title := cpTitle, published := ⟨2020, 1, 1⟩, version := "1.0",
            oscalVersion := "1.1.2", revisions := none } : Metadata).published =
      metaPublished ["Version 1.0", "January 1, 2020"] :=
  (C8_metadata_error_iff ["Version 1.0", "January 1, 2020"]).2 _ (by decide)

/-! C4 machinery -/

/-- What a single row of the resource table contributes (lines 344-356):
`row[1]` is matched against the resource regex; on success a `Resource`
titled `row[0]` is emitted, otherwise the row yields nothing. -/
def rowToResource (row : List String) : Option Resource :=
  match resourceReMatch (row.getD 1 "") with
  | none => none
  | some (n, u) => some ⟨row.getD 0 "", n, u⟩

theorem hasSubstr_iff (pat : List Char) :
    ∀ s : List Char, hasSubstr pat s = true ↔ ∃ i, (s.drop i).take pat.length = pat := by
  intro s
  induction s with
  | nil =>
    rw [hasSubstr]
    simp
  | cons c rest ih =>
    rw [hasSubstr]
    simp only [Bool.or_eq_true, ih]
    constructor
    · rintro (h | ⟨i, hi⟩)
      · exact ⟨0, by simpa using h⟩
      · exact ⟨i + 1, by simpa using hi⟩
    · rintro ⟨i, hi⟩
      rcases i with _ | i
      · exact Or.inl (by simpa using hi)
      · exact Or.inr ⟨i, by simpa using hi⟩

theorem getLast_filter_range_max (P : ℕ → Bool) :
    ∀ n m, ((List.range n).filter P).getLast? = some m →
      P m = true ∧ m < n ∧ ∀ k, m < k → k < n → P k = false := by
  intro n
  induction n with
  | zero =>
    intro m hm
    simp at hm
  | succ n ih =>
    intro m hm
    rw [List.range_succ, List.filter_append] at hm
    by_cases hPn : P n = true
    · rw [show [n].filter P = [n] by simp [hPn]] at hm
      rw [List.getLast?_concat] at hm
      obtain rfl : n = m := by injection hm
      exact ⟨hPn, Nat.lt_succ_self n, fun k hk1 hk2 => absurd hk2 (by omega)⟩
    · rw [show [n].filter P = [] by simp [Bool.eq_false_iff.mpr hPn],
        List.append_nil] at hm
      obtain ⟨h1, h2, h3⟩ := ih m hm
      refine ⟨h1, by omega, fun k hk1 hk2 => ?_⟩
      by_cases hkn : k = n
      · rw [hkn]
        exact Bool.eq_false_iff.mpr hPn
      · exact h3 k hk1 (by omega)

theorem httpSplitIdx_some (cs : List Char) (i : ℕ) (h : httpSplitIdx cs = some i) :
    (cs.drop i).take 4 = "http".data ∧
    ∀ j, i < j → ¬ (cs.drop j).take 4 = "http".data := by
  unfold httpSplitIdx at h
  obtain ⟨h1, h2, h3⟩ := getLast_filter_range_max _ _ _ h
  refine ⟨by simpa using h1, fun j hij hj => ?_⟩
  by_cases hjn : j < cs.length + 1
  · have := h3 j hij hjn
    simp [hj] at this
  · have hdrop : cs.drop j = [] := List.drop_eq_nil_of_le (by omega)
    rw [hdrop] at hj
    simp at hj

theorem httpSplitIdx_none (cs : List Char) :
    httpSplitIdx cs = none ↔ hasSubstr "http".data cs = false := by
  unfold httpSplitIdx
  rw [List.getLast?_eq_none_iff, List.filter_eq_nil_iff]
  constructor
  · intro h
    rw [Bool.eq_false_iff]
    intro hc
    obtain ⟨i, hi⟩ := (hasSubstr_iff _ cs).mp hc
    have hlen : i < cs.length + 1 := by
      by_contra hge
      rw [List.drop_eq_nil_of_le (by omega)] at hi
      simp at hi
    exact absurd (by simpa using hi) (by simpa using h i (List.mem_range.mpr hlen))
  · intro h i hi
    simp only [decide_eq_true_eq]
    intro hc
    rw [Bool.eq_false_iff] at h
    exact h ((hasSubstr_iff _ cs).mpr ⟨i, by simpa using hc⟩)

theorem resourceReMatch_some (s n u : String) (h : resourceReMatch s = some (n, u)) :
    n.data ++ u.data = s.data ∧ u.data.take 4 = "http".data ∧
    hasSubstr "http".data (u.data.drop 1) = false := by
  unfold resourceReMatch at h
  rcases hidx : httpSplitIdx s.data with _ | i
  · rw [hidx] at h
    exact Option.noConfusion h
  · rw [hidx] at h
    obtain ⟨hto, hmax⟩ := httpSplitIdx_some s.data i hidx
    injection h with h2
    have hn : n = ⟨s.data.take i⟩ := (congrArg Prod.fst h2).symm
    have hu : u = ⟨s.data.drop i⟩ := (congrArg Prod.snd h2).symm
    subst hn hu
    refine ⟨List.take_append_drop i s.data, hto, ?_⟩
    rw [Bool.eq_false_iff]
    intro hc
    obtain ⟨k, hk⟩ := (hasSubstr_iff _ _).mp hc
    rw [List.drop_drop, List.drop_drop] at hk
    exact hmax (i + (1 + k)) (by omega) (by simpa using hk)

theorem resourceReMatch_none (s : String) :
    resourceReMatch s = none ↔ pyIn "http" s = false := by
  unfold resourceReMatch pyIn
  rw [← httpSplitIdx_none]
  rcases h : httpSplitIdx s.data with _ | i
  · simp
  · simp

theorem backmatterRowsGo_ok :
    ∀ rows : List (List String), (∀ r ∈ rows, 2 ≤ r.length) →
      backmatterRowsGo rows = .ok (rows.filterMap rowToResource) := by
  intro rows
  induction rows with
  | nil => intro _; rfl
  | cons row rest ih =>
    intro h
    have hrow : ¬ row.length < 2 := by
      have := h row (by simp)
      omega
    rw [backmatterRowsGo, if_neg hrow, List.filterMap_cons]
    rcases hm : resourceReMatch (row.getD 1 "") with _ | nu
    · rw [show rowToResource row = none by unfold rowToResource; rw [hm]]
      exact ih (fun r hr => h r (by simp [hr]))
    · obtain ⟨n, u⟩ := nu
      rw [show rowToResource row = some ⟨row.getD 0 "", n, u⟩ by
        unfold rowToResource
        rw [hm]]
      rw [ih (fun r hr => h r (by simp [hr]))]

/-- C4 amended: every row of the resource table is processed — the header
row included, no row is skipped.  Column 0 becomes the title, and column 1
is split at the LAST occurrence of `http`: the description is everything
before it (trailing spaces included) and the URL the remainder, so the URL
starts with `http` and contains no later `http`.  A row whose column 1 has
no `http` yields no Resource, hence at most one Resource per table row. -/
theorem C4_split_at_last_http (rows : List (List String))
    (hlen : ∀ r ∈ rows, 2 ≤ r.length) :
    parseBackmatterRows rows = .ok (rows.filterMap rowToResource) ∧
    (rows.filterMap rowToResource).length ≤ rows.length ∧
    ∀ r ∈ rows,
      (∀ res, rowToResource r = some res →
        res.title = r.getD 0 "" ∧
        res.description.data ++ res.url.data = (r.getD 1 "").data ∧
        res.url.data.take 4 = "http".data ∧
        pyIn "http" ⟨res.url.data.drop 1⟩ = false) ∧
      (rowToResource r = none ↔ pyIn "http" (r.getD 1 "") = false) := by
  refine ⟨backmatterRowsGo_ok rows hlen, List.length_filterMap_le _ _, fun r _ => ⟨?_, ?_⟩⟩
  · intro res hres
    unfold rowToResource at hres
    rcases hm : resourceReMatch (r.getD 1 "") with _ | nu
    · rw [hm] at hres
      exact Option.noConfusion hres
    · obtain ⟨n, u⟩ := nu
      rw [hm] at hres
      injection hres with heq
      subst heq
      obtain ⟨h1, h2, h3⟩ := resourceReMatch_some _ _ _ hm
      exact ⟨rfl, h1, h2, h3⟩
  · unfold rowToResource
    rw [← resourceReMatch_none]
    rcases hm : resourceReMatch (r.getD 1 "") with _ | nu
    · simp
    · simp

def c4rows : List (List String) :=
  [["Reference", "URL"], ["RFC 5280", "profile at http://x.org http://y.org/rfc"]]

theorem C4_split_at_last_http_witness :
    (∀ r ∈ c4rows, 2 ≤ r.length) ∧
    (parseBackmatterRows c4rows = .ok (c4rows.filterMap rowToResource) ∧
      (c4rows.filterMap rowToResource).length ≤ c4rows.length ∧
      ∀ r ∈ c4rows,
        (∀ res, rowToResource r = some res →
          res.title = r.getD 0 "" ∧
          res.description.data ++ res.url.data = (r.getD 1 "").data ∧
          res.url.data.take 4 = "http".data ∧
          pyIn "http" ⟨res.url.data.drop 1⟩ = false) ∧
        (rowToResource r = none ↔ pyIn "http" (r.getD 1 "") = false)) :=
  ⟨by decide, C4_split_at_last_http c4rows (by decide)⟩

-- Sanity: the table's header row is processed (and, lacking `http`,
-- contributes nothing), and the data row splits at the last `http`.
example : parseBackmatterRows c4rows =
    .ok [⟨"RFC 5280", "profile at http://x.org ", "http://y.org/rfc"⟩] := by decide
